import Mathlib

set_option maxHeartbeats 1000000

/-! Shallow embedding of `tools/make-event-names.py`: a one-shot generator that
scans `#define NAME VALUE` macro lines of a C input header and emits, per
recognized name prefix, an enumeration, an integer-to-enum conversion function,
and (for the event-type group) a tagged event-code type.  Pure functions below
mirror the script's functions; text emission is modelled as structured output
(lists of variants, constants and match arms) rather than raw strings. -/

/-- Characters matched by the regex class `\w` (ASCII fragment, which covers
every macro name occurring in C headers). -/
def wordChar (c : Char) : Bool := c.isAlphanum || c = '_'

/-- Characters matched by the regex class `\s` (ASCII fragment). -/
def pySpace (c : Char) : Bool :=
  c = ' ' || c = '\t' || c = '\n' || c = '\r' || c = '\x0b' || c = '\x0c'

/-- Python `str.startswith`: `p` is a textual prefix of `s`. -/
def startswith (p s : String) : Bool := p.toList.isPrefixOf s.toList

/-- Strip an exact literal from the front of a character list. -/
def dropLit : List Char → List Char → Option (List Char)
  | [], cs => some cs
  | _ :: _, [] => none
  | p :: ps, c :: cs => if p = c then dropLit ps cs else none

/-- Greedy match of one-or-more characters satisfying `f` (regex `X+`),
returning the matched run and the remainder. -/
def span1 (f : Char → Bool) (cs : List Char) : Option (List Char × List Char) :=
  if (cs.takeWhile f).isEmpty then none else some (cs.takeWhile f, cs.dropWhile f)

/-- The regex `^#define\s+(\w+)\s+(\w+)` of `parse_define`, returning the two
captured groups (macro name and value token).  Greedy matching is equivalent to
the regex here because `\s` and `\w` are disjoint character classes. -/
def matchDefine (line : String) : Option (String × String) := do
  let r0 ← dropLit "#define".toList line.toList
  let (_, r1) ← span1 pySpace r0
  let (name, r2) ← span1 wordChar r1
  let (_, r3) ← span1 pySpace r2
  let (valTok, _) ← span1 wordChar r3
  pure (⟨name⟩, ⟨valTok⟩)

/-- Value of one digit character, accepting the hexadecimal letters. -/
def digitVal (c : Char) : Option Nat :=
  if '0' ≤ c ∧ c ≤ '9' then some (c.toNat - '0'.toNat)
  else if 'a' ≤ c ∧ c ≤ 'f' then some (c.toNat - 'a'.toNat + 10)
  else if 'A' ≤ c ∧ c ≤ 'F' then some (c.toNat - 'A'.toNat + 10)
  else none

/-- Digit run continuation: Python integer literals allow single underscores
between digits (`1_0`), but no trailing or doubled underscore. -/
def parseDigitsAux (base : Nat) : Nat → List Char → Option Nat
  | acc, [] => some acc
  | _, ['_'] => none
  | acc, '_' :: c :: cs =>
      match digitVal c with
      | some d => if d < base then parseDigitsAux base (acc * base + d) cs else none
      | none => none
  | acc, c :: cs =>
      match digitVal c with
      | some d => if d < base then parseDigitsAux base (acc * base + d) cs else none
      | none => none

/-- A whole digit run `digit (["_"] digit)*` in the given base. -/
def parseDigits (base : Nat) (cs : List Char) : Option Nat :=
  match cs with
  | [] => none
  | c :: rest =>
      match digitVal c with
      | some d => if d < base then parseDigitsAux base d rest else none
      | none => none

/-- Digits after a `0x`/`0o`/`0b` marker; Python permits one leading
underscore there (`0x_1f`). -/
def parseAfterRadix (base : Nat) (cs : List Char) : Option Nat :=
  match cs with
  | '_' :: rest => parseDigits base rest
  | _ => parseDigits base cs

/-- Python `int(tok, 0)` on a `\w+` token: radix markers `0x`/`0o`/`0b`
(either case), otherwise decimal, where a leading zero is only legal when the
value is zero (`00` parses, `010` raises `ValueError`). -/
def parsePyInt (s : String) : Option Nat :=
  match s.toList with
  | [] => none
  | ['0'] => some 0
  | '0' :: c :: rest =>
      if c = 'x' ∨ c = 'X' then parseAfterRadix 16 rest
      else if c = 'o' ∨ c = 'O' then parseAfterRadix 8 rest
      else if c = 'b' ∨ c = 'B' then parseAfterRadix 2 rest
      else
        match parseDigits 10 ('0' :: c :: rest) with
        | some v => if v = 0 then some 0 else none
        | none => none
  | cs => parseDigits 10 cs

/-- The `prefixes` list of the script, in source order. -/
def prefixes : List String :=
  ["EV_", "REL_", "ABS_", "KEY_", "BTN_", "LED_", "SND_", "MSC_", "SW_",
   "FF_", "SYN_", "REP_", "INPUT_PROP_", "BUS_"]

/-- The `blacklist` of macro names that are discarded. -/
def blacklist : List String :=
  ["EV_VERSION", "BTN_MISC", "BTN_MOUSE", "BTN_JOYSTICK", "BTN_GAMEPAD",
   "BTN_DIGI", "BTN_WHEEL", "BTN_TRIGGER_HAPPY"]

/-- The `event_names` list used by `print_event_code` to decide which
event-type variants receive a typed payload. -/
def event_names : List String :=
  ["REL_", "ABS_", "KEY_", "BTN_", "LED_", "SND_", "MSC_", "SW_", "FF_",
   "SYN_", "REP_"]

/-- One group's value buckets: Python dict from integer value to the list of
macro names sharing that value, in insertion order. -/
abbrev Buckets := List (Nat × List String)

/-- The `Bits` object with its dynamically attached per-prefix attributes,
modelled as an insertion-ordered association list from attribute name to
buckets; an absent key is Python `not hasattr`. -/
abbrev Bits := List (String × Buckets)

/-- Python `getattr(bits, a)` guarded by `hasattr`. -/
def getattrB (bits : Bits) (a : String) : Option Buckets :=
  match bits.find? (fun e => e.1 == a) with
  | some e => some e.2
  | none => none

/-- Python `setattr(bits, a, B)` (updates in place, or attaches a new
attribute at the end). -/
def setattrB (bits : Bits) (a : String) (B : Buckets) : Bits :=
  if bits.any (fun e => e.1 == a) then
    bits.map (fun e => if e.1 == a then (a, B) else e)
  else bits ++ [(a, B)]

/-- The dict update of `parse_define`: append the name to the bucket of
`v` if present, else create the bucket `[n]` at the end. -/
def addName (b : Buckets) (v : Nat) (n : String) : Buckets :=
  if b.any (fun e => e.1 == v) then
    b.map (fun e => if e.1 == v then (e.1, e.2 ++ [n]) else e)
  else b ++ [(v, [n])]

/-- Python `prefix[:-1].lower()`, the attribute name of a prefix. -/
def attrOf (p : String) : String := ⟨p.toList.dropLast.map Char.toLower⟩

/-- One step of the prefix loop in `parse_define`: when the macro name starts
with `q`, insert it into the group of `q` (the loop has no `break`, so every
prefix is tested). -/
def insertByPfx (name : String) (v : Nat) (bits : Bits) (q : String) : Bits :=
  if startswith q name then
    setattrB bits (attrOf q) (addName ((getattrB bits (attrOf q)).getD []) v name)
  else bits

/-- The `parse_define` function: regex match, blacklist check, integer parse,
then the prefix loop. -/
def parse_define (bits : Bits) (line : String) : Bits :=
  match matchDefine line with
  | none => bits
  | some (name, valTok) =>
      if name ∈ blacklist then bits
      else
        match parsePyInt valTok with
        | none => bits
        | some v => prefixes.foldl (insertByPfx name v) bits

/-- One line of the loop in `parse`: lines not starting with `#define` are
skipped with no inspection. -/
def parseLine (bits : Bits) (line : String) : Bits :=
  if startswith "#define" line then parse_define bits line else bits

/-- The `parse` function: builds a fresh `Bits()` and folds the file's lines
into it. -/
def parse (lines : List String) : Bits := lines.foldl parseLine []

/-- Outcome of one emitter call: `skip` is the early return on a missing
attribute, `err` is an uncaught Python exception (destructuring failure,
`AttributeError`, `UnboundLocalError`), `ok` carries the structured output. -/
inductive Emit (α : Type) where
  | skip : Emit α
  | err : Emit α
  | ok : α → Emit α
deriving DecidableEq

/-- Total projection from an `Emit`, with a default. -/
def emitD {α : Type} (d : α) : Emit α → α
  | Emit.ok a => a
  | _ => d

/-- One printed line of an enumeration body: the synthesized `EV_UNK,` line,
or a `NAME = value,` line. -/
inductive EnumVariant where
  | unk : EnumVariant
  | entry : String → Nat → EnumVariant
deriving DecidableEq

/-- Structured output of `print_enums`: enumeration body lines plus the
`pub const ALIAS: E = E::CANONICAL;` lines (alias, canonical). -/
structure EnumOut where
  variants : List EnumVariant
  consts : List (String × String)
deriving DecidableEq

/-- First element of a bucket's name list (Python `names[0]`; the emitters
only reach it on non-empty buckets, which `parse` guarantees). -/
def headStr (ns : List String) : String := ns.headD ""

/-- The main loop of `print_enums` over one group's buckets: `EV_UNK` is
printed right before a bucket whose canonical name is `EV_MAX`, every bucket
yields one `NAME = value` line, and buckets with several names record their
aliases.  `none` models the `IndexError` on an empty name list. -/
def enumItems : Buckets → Option (List EnumVariant × List (String × List String))
  | [] => some ([], [])
  | (_, []) :: _ => none
  | (v, n :: rest) :: more => do
      let (vs, assoc) ← enumItems more
      some ((if n = "EV_MAX" then [EnumVariant.unk] else []) ++
              EnumVariant.entry n v :: vs,
            (if rest.isEmpty then [] else [(n, rest)]) ++ assoc)

/-- The extra loop of `print_enums` for the button group merged into the key
enumeration (no `EV_MAX` check there). -/
def btnItems : Buckets → Option (List EnumVariant × List (String × List String))
  | [] => some ([], [])
  | (_, []) :: _ => none
  | (v, n :: rest) :: more => do
      let (vs, assoc) ← btnItems more
      some (EnumVariant.entry n v :: vs,
            (if rest.isEmpty then [] else [(n, rest)]) ++ assoc)

/-- The alias constants emitted from the collected `associated_names`. -/
def constsOf (assoc : List (String × List String)) : List (String × String) :=
  assoc.flatMap (fun e => e.2.map (fun n => (n, e.1)))

/-- The `print_enums` emitter: skip on missing attribute; for the key group
the button buckets are appended (`getattr(bits, "btn")` raises when the
button attribute is missing). -/
def print_enums (bits : Bits) (p : String) : Emit EnumOut :=
  match getattrB bits p with
  | none => Emit.skip
  | some buckets =>
      match enumItems buckets with
      | none => Emit.err
      | some (vs, assoc) =>
          if p = "key" then
            match getattrB bits "btn" with
            | none => Emit.err
            | some bb =>
                match btnItems bb with
                | none => Emit.err
                | some (vs2, assoc2) =>
                    Emit.ok ⟨vs ++ vs2, constsOf (assoc ++ assoc2)⟩
          else Emit.ok ⟨vs, constsOf assoc⟩

/-- One match arm of the emitted conversion function: an exact arm
`v => Some(E::NAME)` or the synthesized range arm
`lo..=hi => Some(EventType::EV_UNK)` (bounds kept in `Int` because the
script prints `last_val+1` and `val-1` as Python integers). -/
inductive Arm where
  | exact : Nat → String → Arm
  | range : Int → Int → Arm
deriving DecidableEq

/-- The main loop of `print_enums_convert_fn`: `lastVal` is the Python local
`last_val`, unbound (`none`) before the first iteration; reaching the range
arm with it unbound is the `UnboundLocalError`, modelled by `none`. -/
def convertArms (lastVal : Option Nat) : Buckets → Option (List Arm)
  | [] => some []
  | (_, []) :: _ => none
  | (v, n :: _) :: more => do
      let tail ← convertArms (some v) more
      if n = "EV_MAX" then
        match lastVal with
        | none => none
        | some lv =>
            some (Arm.range ((lv : Int) + 1) ((v : Int) - 1) ::
                    Arm.exact v n :: tail)
      else some (Arm.exact v n :: tail)

/-- The extra arms of the key-group conversion function for button buckets. -/
def btnArms : Buckets → Option (List Arm)
  | [] => some []
  | (_, []) :: _ => none
  | (v, n :: _) :: more => do
      let tail ← btnArms more
      some (Arm.exact v n :: tail)

/-- The `print_enums_convert_fn` emitter. -/
def print_enums_convert_fn (bits : Bits) (p : String) : Emit (List Arm) :=
  match getattrB bits p with
  | none => Emit.skip
  | some buckets =>
      match convertArms none buckets with
      | none => Emit.err
      | some arms =>
          if p = "key" then
            match getattrB bits "btn" with
            | none => Emit.err
            | some bb =>
                match btnArms bb with
                | none => Emit.err
                | some arms2 => Emit.ok (arms ++ arms2)
          else Emit.ok arms

/-- Evaluation of the emitted `match` on an input code: arms are tried in
emission order, the trailing `_ => None` arm is the `none` fallthrough, and a
hit returns the variant identifier named in the arm. -/
def evalArms (code : Nat) : List Arm → Option String
  | [] => none
  | Arm.exact v n :: rest => if code = v then some n else evalArms code rest
  | Arm.range lo hi :: rest =>
      if lo ≤ (code : Int) ∧ (code : Int) ≤ hi then some "EV_UNK"
      else evalArms code rest

/-- One printed line of the tagged `EventCode` type of `print_event_code`. -/
inductive CodeVariant where
  | payload : String → String → CodeVariant
  | unkPayload : CodeVariant
  | plain : String → CodeVariant
  | valEntry : String → Nat → CodeVariant
deriving DecidableEq

/-- Python `name[3:]`, the event-type name with its first three characters
removed. -/
def strip3 (n : String) : String := ⟨n.toList.drop 3⟩

/-- The main loop of `print_event_code`: the header `for val, [name] in ...`
destructures each bucket as a one-element list, so a bucket with zero or at
least two names raises (modelled by `none`); a name whose stripped form plus
an underscore occurs in `event_names` gets a same-named payload type,
`EV_FF_STATUS` gets the `EV_FF` payload, `EV_MAX` is preceded by the
synthesized `EV_UNK` variant carrying two raw `u32` fields. -/
def codeItems : Buckets → Option (List CodeVariant)
  | [] => some []
  | (v, [n]) :: more => do
      let tail ← codeItems more
      if (strip3 n ++ "_") ∈ event_names then
        some (CodeVariant.payload n n :: tail)
      else if n = "EV_FF_STATUS" then
        some (CodeVariant.payload "EV_FF_STATUS" "EV_FF" :: tail)
      else if n = "EV_MAX" then
        some (CodeVariant.unkPayload :: CodeVariant.plain n :: tail)
      else some (CodeVariant.plain n :: tail)
  | _ => none

/-- The extra key-group loop of `print_event_code` (every name of every
button bucket becomes a `NAME = value` line). -/
def btnCodeItems (bb : Buckets) : List CodeVariant :=
  bb.flatMap (fun e => e.2.map (fun n => CodeVariant.valEntry n e.1))

/-- The `print_event_code` emitter. -/
def print_event_code (bits : Bits) (p : String) : Emit (List CodeVariant) :=
  match getattrB bits p with
  | none => Emit.skip
  | some buckets =>
      match codeItems buckets with
      | none => Emit.err
      | some vs =>
          if p = "key" then
            match getattrB bits "btn" with
            | none => Emit.err
            | some bb => Emit.ok (vs ++ btnCodeItems bb)
          else Emit.ok vs

/-- The `__main__` block as a function of `len(sys.argv)` (which file indices
are opened depends only on the argument count): below two arguments print the
usage and exit 2; exactly two open `argv[1]` and exit 2; otherwise the loop
`for i in (1, len(sys.argv) - 1)` opens exactly the argv indices `1` and
`len(sys.argv) - 1` and the process ends with the implicit status 0.  The
result is (usage printed, opened argv indices, exit status). -/
def mainOpened (argc : Nat) : Bool × List Nat × Nat :=
  if argc < 2 then (true, [], 2)
  else if argc = 2 then (false, [1], 2)
  else (false, [1, argc - 1], 0)

/-- Each opened file is processed by `bits = parse(f)` followed by
`print_mapping_table(bits)`: the accumulator handed to the emitters for a
file is `parse` of that file alone. -/
def processedBits (files : List (List String)) : List Bits := files.map parse

/-- Spec-side view of the scanner's per-line decision (same tests, in the
same order, as `parse` plus `parse_define`). -/
def validMacro (line : String) : Option (String × Nat) :=
  if startswith "#define" line then
    match matchDefine line with
    | none => none
    | some (name, valTok) =>
        if name ∈ blacklist then none
        else
          match parsePyInt valTok with
          | none => none
          | some v => some (name, v)
  else none

/-- The (value, name) macros of the lines that land in attribute group `p`,
in file order. -/
def macrosFor (p : String) (lines : List String) : List (Nat × String) :=
  lines.filterMap (fun line =>
    match validMacro line with
    | none => none
    | some (name, v) =>
        if (prefixes.find? (fun q => startswith q name)).map attrOf = some p then
          some (v, name)
        else none)

/-- Insertion-order first occurrences of a list's elements. -/
def firstKeys (l : List Nat) : List Nat :=
  l.foldl (fun ks v => if v ∈ ks then ks else ks ++ [v]) []

/-- Insertion-order grouping of (value, name) pairs into buckets, the
dictionary the scanner builds for one group. -/
def groupBy (ms : List (Nat × String)) : Buckets :=
  ms.foldl (fun b m => addName b m.1 m.2) []

/-- The `NAME = value` lines of an enumeration body. -/
def entriesOf (vs : List EnumVariant) : List (String × Nat) :=
  vs.filterMap (fun v =>
    match v with
    | EnumVariant.entry n x => some (n, x)
    | _ => none)

/-- All identifiers introduced by enumeration body lines (`EV_UNK` for the
synthesized variant). -/
def variantIdents : List EnumVariant → List String
  | [] => []
  | EnumVariant.unk :: rest => "EV_UNK" :: variantIdents rest
  | EnumVariant.entry n _ :: rest => n :: variantIdents rest

/-- All identifiers named by the arms of a conversion function (the range
arm names `EV_UNK`). -/
def armIdents : List Arm → List String
  | [] => []
  | Arm.exact _ n :: rest => n :: armIdents rest
  | Arm.range _ _ :: rest => "EV_UNK" :: armIdents rest

/-- Every identifier appearing in the output of `print_enums`: canonical and
synthesized variant identifiers plus the alias constants. -/
def allEnumIdents (out : EnumOut) : List String :=
  variantIdents out.variants ++ out.consts.map (fun e => e.1)

/-- The Python local `last_val` of `print_enums_convert_fn` after iterating
over a list of buckets, starting from `lastVal`. -/
def lastValAfter (lastVal : Option Nat) : Buckets → Option Nat
  | [] => lastVal
  | b :: bs => lastValAfter (some b.1) bs

/-- The arm list the conversion-function emitter produces on an event-type
group whose last bucket is canonically named `EV_MAX` and whose
second-to-last bucket has value `vprev`. -/
def evArmsFor (frontFull : Buckets) (vprev vmax : Nat) : List Arm :=
  frontFull.map (fun b => Arm.exact b.1 (headStr b.2)) ++
    [Arm.range ((vprev : Int) + 1) ((vmax : Int) - 1), Arm.exact vmax "EV_MAX"]

/-- Whether a printed `EventCode` line introduces the identifier `n`. -/
def bearsName (n : String) : CodeVariant → Bool
  | CodeVariant.payload m _ => m == n
  | CodeVariant.plain m => m == n
  | CodeVariant.valEntry m _ => m == n
  | CodeVariant.unkPayload => false

/-- The `EventCode` lines one singleton event-type bucket with canonical name
`n` produces. -/
def codePiece (n : String) : List CodeVariant :=
  if (strip3 n ++ "_") ∈ event_names then [CodeVariant.payload n n]
  else if n = "EV_FF_STATUS" then [CodeVariant.payload "EV_FF_STATUS" "EV_FF"]
  else if n = "EV_MAX" then [CodeVariant.unkPayload, CodeVariant.plain n]
  else [CodeVariant.plain n]

/-! Basic lemmas about strings, folds and the association-list operations. -/

theorem string_ext {p q : String} (h : p.toList = q.toList) : p = q := by
  cases p
  cases q
  simp only [String.toList] at h
  rw [h]

theorem isPrefixOf_total :
    ∀ (a b c : List Char), a.isPrefixOf c = true → b.isPrefixOf c = true →
      a.isPrefixOf b = true ∨ b.isPrefixOf a = true
  | [], b, _, _, _ => Or.inl (by simp [List.isPrefixOf])
  | _ :: _, [], _, _, _ => Or.inr (by simp [List.isPrefixOf])
  | _ :: _, _ :: _, [], ha, _ => by simp [List.isPrefixOf] at ha
  | x :: as, y :: bs, z :: cs, ha, hb => by
      simp only [List.isPrefixOf, Bool.and_eq_true, beq_iff_eq] at ha hb
      rcases isPrefixOf_total as bs cs ha.2 hb.2 with h | h
      · exact Or.inl (by simp [List.isPrefixOf, ha.1, hb.1, h])
      · exact Or.inr (by simp [List.isPrefixOf, ha.1, hb.1, h])

theorem pfx_unique {name p q : String} (hp : p ∈ prefixes) (hq : q ∈ prefixes)
    (hp' : startswith p name = true) (hq' : startswith q name = true) : p = q := by
  have tab : ∀ x ∈ prefixes, ∀ y ∈ prefixes,
      x.toList.isPrefixOf y.toList = true → x = y := by decide
  rcases isPrefixOf_total p.toList q.toList name.toList hp' hq' with h | h
  · exact tab p hp q hq h
  · exact (tab q hq p hp h).symm

theorem prefixes_nodup : prefixes.Nodup := by decide

theorem foldl_fix {α β : Type} (f : β → α → β) :
    ∀ (L : List α) (b : β), (∀ (x : β) (a : α), a ∈ L → f x a = x) →
      L.foldl f b = b
  | [], _, _ => rfl
  | a :: L, b, h => by
      rw [List.foldl_cons, h b a (by simp)]
      exact foldl_fix f L b (fun x a' ha' => h x a' (by simp [ha']))

theorem foldl_unique {α β : Type} (f : β → α → β) (cond : α → Bool)
    (hid : ∀ (x : β) (a : α), cond a = false → f x a = x) :
    ∀ (L : List α) (b : β) (q : α), L.Nodup → L.find? cond = some q →
      (∀ a ∈ L, cond a = true → a = q) → L.foldl f b = f b q
  | [], _, _, _, hfind, _ => by simp at hfind
  | a :: L, b, q, hnd, hfind, huniq => by
      by_cases hc : cond a = true
      · have hq : q = a := by
          rw [List.find?_cons_of_pos _ hc] at hfind
          exact (Option.some_inj.mp hfind).symm
        subst hq
        rw [List.foldl_cons]
        have hLid : ∀ (x : β) (a' : α), a' ∈ L → f x a' = x := by
          intro x a' ha'
          by_cases hc' : cond a' = true
          · have : a' = q := huniq a' (by simp [ha']) hc'
            subst this
            exact absurd ha' (List.Nodup.not_mem hnd)
          · exact hid x a' (by simpa using hc')
        exact foldl_fix f L (f b q) hLid
      · have hc' : cond a = false := by simpa using hc
        rw [List.foldl_cons, hid b a hc']
        rw [List.find?_cons_of_neg _ hc] at hfind
        exact foldl_unique f cond hid L b q (List.Nodup.of_cons hnd) hfind
          (fun a' ha' hca' => huniq a' (by simp [ha']) hca')

theorem find?_update_ne (bits : Bits) (a p : String) (B : Buckets) (h : ¬ p = a) :
    (bits.map (fun e => if e.1 == a then (a, B) else e)).find? (fun e => e.1 == p)
      = bits.find? (fun e => e.1 == p) := by
  induction bits with
  | nil => rfl
  | cons e bits ih =>
      by_cases he : e.1 = a
      · have h1 : (e.1 == a) = true := by simpa using he
        have h2 : (e.1 == p) = false := by simp [he]; exact fun hh => h hh.symm
        simp only [List.map_cons, h1, if_true]
        rw [List.find?_cons_of_neg _ (by simp; exact fun hh => h hh.symm),
          List.find?_cons_of_neg _ (by simpa using h2)]
        exact ih
      · have h1 : (e.1 == a) = false := by simpa using he
        simp only [List.map_cons, h1, if_false]
        by_cases hp : e.1 = p
        · rw [List.find?_cons_of_pos _ (by simpa using hp),
            List.find?_cons_of_pos _ (by simpa using hp)]
          simp
        · rw [List.find?_cons_of_neg _ (by simpa using hp),
            List.find?_cons_of_neg _ (by simpa using hp)]
          exact ih

theorem find?_update_self (bits : Bits) (a : String) (B : Buckets)
    (h : bits.any (fun e => e.1 == a) = true) :
    (bits.map (fun e => if e.1 == a then (a, B) else e)).find? (fun e => e.1 == a)
      = some (a, B) := by
  induction bits with
  | nil => simp at h
  | cons e bits ih =>
      by_cases he : e.1 = a
      · have h1 : (e.1 == a) = true := by simpa using he
        simp only [List.map_cons, h1, if_true]
        rw [List.find?_cons_of_pos _ (by simp)]
      · have h1 : (e.1 == a) = false := by simpa using he
        simp only [List.map_cons, h1, if_false]
        rw [List.find?_cons_of_neg _ (by simpa using h1)]
        exact ih (by simpa [h1] using h)

theorem getattrB_setattrB (bits : Bits) (a p : String) (B : Buckets) :
    getattrB (setattrB bits a B) p = if p = a then some B else getattrB bits p := by
  unfold setattrB getattrB
  by_cases hA : bits.any (fun e => e.1 == a) = true
  · rw [if_pos hA]
    by_cases hp : p = a
    · subst hp
      rw [find?_update_self bits p B hA, if_pos rfl]
    · rw [find?_update_ne bits a p B hp, if_neg hp]
  · rw [if_neg hA]
    have hnone : bits.find? (fun e => e.1 == a) = none := by
      rw [List.find?_eq_none]
      intro x hx
      intro hxa
      exact hA (List.any_eq_true.mpr ⟨x, hx, hxa⟩)
    by_cases hp : p = a
    · subst hp
      rw [if_pos rfl, List.find?_append, hnone]
      simp [List.find?]
    · rw [if_neg hp, List.find?_append]
      cases hf : bits.find? (fun e => e.1 == p) with
      | some e => simp
      | none =>
          simp only [Option.none_orElse]
          rw [List.find?_cons_of_neg _ (by simp; exact fun hh => hp hh.symm)]
          simp [List.find?]

theorem mem_fkStep (acc : List Nat) (a x : Nat) :
    x ∈ (if a ∈ acc then acc else acc ++ [a]) ↔ x ∈ acc ∨ x = a := by
  by_cases ha : a ∈ acc
  · rw [if_pos ha]
    constructor
    · exact Or.inl
    · rintro (h | h)
      · exact h
      · rwa [h]
  · rw [if_neg ha]
    simp

theorem mem_firstKeys_aux (l : List Nat) :
    ∀ (acc : List Nat) (x : Nat),
      x ∈ l.foldl (fun ks v => if v ∈ ks then ks else ks ++ [v]) acc ↔
        x ∈ acc ∨ x ∈ l := by
  induction l with
  | nil => simp
  | cons a l ih =>
      intro acc x
      rw [List.foldl_cons, ih, mem_fkStep]
      simp only [List.mem_cons]
      tauto

theorem mem_firstKeys (l : List Nat) (x : Nat) : x ∈ firstKeys l ↔ x ∈ l := by
  rw [firstKeys, mem_firstKeys_aux]
  simp

theorem nodup_firstKeys_aux (l : List Nat) :
    ∀ acc : List Nat, acc.Nodup →
      (l.foldl (fun ks v => if v ∈ ks then ks else ks ++ [v]) acc).Nodup := by
  induction l with
  | nil => intro acc h; simpa
  | cons a l ih =>
      intro acc h
      rw [List.foldl_cons]
      apply ih
      by_cases ha : a ∈ acc
      · rwa [if_pos ha]
      · rw [if_neg ha]
        simp [List.nodup_append, h, ha]

theorem nodup_firstKeys (l : List Nat) : (firstKeys l).Nodup :=
  nodup_firstKeys_aux l [] (by simp)

theorem firstKeys_append (l : List Nat) (v : Nat) :
    firstKeys (l ++ [v]) =
      if v ∈ firstKeys l then firstKeys l else firstKeys l ++ [v] := by
  simp [firstKeys, List.foldl_append]

theorem groupBy_append (ms : List (Nat × String)) (m : Nat × String) :
    groupBy (ms ++ [m]) = addName (groupBy ms) m.1 m.2 := by
  simp [groupBy, List.foldl_append]

theorem groupBy_eq (ms : List (Nat × String)) :
    groupBy ms = (firstKeys (ms.map (fun m => m.1))).map
      (fun w => (w, (ms.filter (fun m => m.1 == w)).map (fun m => m.2))) := by
  induction ms using List.reverseRecOn with
  | nil => rfl
  | append_singleton ms m ih =>
      rw [groupBy_append, ih]
      simp only [List.map_append, List.map_cons, List.map_nil]
      rw [firstKeys_append]
      by_cases hv : m.1 ∈ firstKeys (ms.map (fun m => m.1))
      · have hany : ((firstKeys (ms.map (fun m => m.1))).map
            (fun w => (w, (ms.filter (fun m => m.1 == w)).map (fun m => m.2)))).any
              (fun e => e.1 == m.1) = true := by
          rw [List.any_eq_true]
          exact ⟨_, List.mem_map_of_mem _ hv, by simp⟩
        rw [if_pos hv, addName, if_pos hany, List.map_map]
        apply List.map_congr_left
        intro w hw
        by_cases hwv : w = m.1
        · subst hwv
          simp [List.filter_append, List.filter]
        · have h1 : (w == m.1) = false := by simpa using hwv
          have h2 : (m.1 == w) = false := by
            simp only [beq_eq_false_iff_ne, ne_eq]
            exact fun h => hwv h.symm
          simp only [List.filter_append, List.filter, h1, h2]
          simp [h1, h2]
          exact hwv
      · have hany : ((firstKeys (ms.map (fun m => m.1))).map
            (fun w => (w, (ms.filter (fun m => m.1 == w)).map (fun m => m.2)))).any
              (fun e => e.1 == m.1) = false := by
          rw [Bool.eq_false_iff]
          intro hc
          rcases List.any_eq_true.mp hc with ⟨e, he, hee⟩
          rcases List.mem_map.mp he with ⟨w, hw, rfl⟩
          have hwm : w = m.1 := by simpa using hee
          exact hv (hwm ▸ hw)
        rw [if_neg hv, addName, if_neg (by simp [hany]), List.map_append,
          List.map_cons, List.map_nil]
        have hfilter : ms.filter (fun x => x.1 == m.1) = [] := by
          rw [List.filter_eq_nil_iff]
          intro x hx hxe
          have hxm : x.1 = m.1 := by simpa using hxe
          exact hv ((mem_firstKeys _ _).mpr
            (List.mem_map.mpr ⟨x, hx, hxm⟩))
        have h3 : (firstKeys (ms.map (fun m => m.1))).map
              (fun w => (w, (ms.filter (fun m => m.1 == w)).map (fun m => m.2)))
            = (firstKeys (ms.map (fun m => m.1))).map
              (fun w => (w, ((ms ++ [m]).filter (fun m => m.1 == w)).map
                (fun m => m.2))) := by
          apply List.map_congr_left
          intro w hw
          have hwv : ¬ (m.1 = w) := fun h => hv (h ▸ hw)
          have h2 : (m.1 == w) = false := by simpa using hwv
          simp [List.filter_append, List.filter, h2]
        have h4 : ((ms ++ [m]).filter (fun x => x.1 == m.1)).map (fun m => m.2)
            = [m.2] := by
          simp [List.filter_append, List.filter, hfilter]
        rw [h3]
        rw [List.append_cancel_left_eq]
        simp only [h4]

theorem parseLine_invalid (bits : Bits) (line : String)
    (h : validMacro line = none) : parseLine bits line = bits := by
  cases hs : startswith "#define" line with
  | false => simp [parseLine, hs]
  | true =>
      cases hm : matchDefine line with
      | none => simp [parseLine, parse_define, hs, hm]
      | some nv =>
          obtain ⟨name, valTok⟩ := nv
          by_cases hb : name ∈ blacklist
          · simp [parseLine, parse_define, hs, hm, hb]
          · cases hi : parsePyInt valTok with
            | none => simp [parseLine, parse_define, hs, hm, hb, hi]
            | some v =>
                exfalso
                simp [validMacro, hs, hm, hb, hi] at h

theorem parseLine_valid (bits : Bits) (line : String) (name : String) (v : Nat)
    (h : validMacro line = some (name, v)) :
    parseLine bits line = prefixes.foldl (insertByPfx name v) bits := by
  cases hs : startswith "#define" line with
  | false => simp [validMacro, hs] at h
  | true =>
      cases hm : matchDefine line with
      | none => simp [validMacro, hs, hm] at h
      | some nv =>
          obtain ⟨name', valTok⟩ := nv
          by_cases hb : name' ∈ blacklist
          · simp [validMacro, hs, hm, hb] at h
          · cases hi : parsePyInt valTok with
            | none => simp [validMacro, hs, hm, hb, hi] at h
            | some v' =>
                have hnv : name' = name ∧ v' = v := by
                  simp [validMacro, hs, hm, hb, hi] at h
                  exact h
                obtain ⟨rfl, rfl⟩ := hnv
                simp [parseLine, parse_define, hs, hm, hb, hi]

theorem foldl_insert_none (bits : Bits) (name : String) (v : Nat)
    (h : prefixes.find? (fun q => startswith q name) = none) :
    prefixes.foldl (insertByPfx name v) bits = bits := by
  apply foldl_fix
  intro x q hq
  have hf : ¬ (startswith q name = true) := by
    simpa using List.find?_eq_none.mp h q hq
  simp [insertByPfx, hf]

theorem find?_pred {A : Type} (p : A → Bool) :
    ∀ (l : List A) (a : A), l.find? p = some a → p a = true
  | [], _, h => by simp at h
  | x :: l, a, h => by
      by_cases hx : p x = true
      · rw [List.find?_cons_of_pos _ hx] at h
        cases h
        exact hx
      · rw [List.find?_cons_of_neg _ (by simpa using hx)] at h
        exact find?_pred p l a h

theorem groupBy_append_pair (ms : List (Nat × String)) (v : Nat) (n : String) :
    groupBy (ms ++ [(v, n)]) = addName (groupBy ms) v n := by
  simp [groupBy, List.foldl_append]

theorem foldl_insert_some (bits : Bits) (name : String) (v : Nat) (q : String)
    (h : prefixes.find? (fun q => startswith q name) = some q) :
    prefixes.foldl (insertByPfx name v) bits
      = setattrB bits (attrOf q)
          (addName ((getattrB bits (attrOf q)).getD []) v name) := by
  have hq : startswith q name = true :=
    find?_pred (fun r => startswith r name) prefixes q h
  have hmem : q ∈ prefixes := List.mem_of_find?_eq_some h
  have huniq : ∀ a ∈ prefixes, startswith a name = true → a = q := fun a ha hsa =>
    pfx_unique ha hmem hsa hq
  rw [foldl_unique (insertByPfx name v) (fun q => startswith q name)
      (fun x a hfa => by simp [insertByPfx, hfa]) prefixes bits q prefixes_nodup
      h huniq]
  simp [insertByPfx, hq]

theorem parse_append (lines : List String) (line : String) :
    parse (lines ++ [line]) = parseLine (parse lines) line := by
  simp [parse, List.foldl_append]

theorem macrosFor_append (p : String) (lines : List String) (line : String) :
    macrosFor p (lines ++ [line]) = macrosFor p lines ++ macrosFor p [line] := by
  simp [macrosFor]

theorem macrosFor_single_invalid (p : String) (line : String)
    (h : validMacro line = none) : macrosFor p [line] = [] := by
  simp [macrosFor, h]

theorem macrosFor_single_valid (p : String) (line : String) (name : String)
    (v : Nat) (h : validMacro line = some (name, v)) :
    macrosFor p [line] =
      if (prefixes.find? (fun q => startswith q name)).map attrOf = some p then
        [(v, name)]
      else [] := by
  simp only [macrosFor, List.filterMap_cons, List.filterMap_nil, h]
  by_cases hc : (prefixes.find? (fun q => startswith q name)).map attrOf = some p
  · rw [if_pos hc, if_pos hc]
  · rw [if_neg hc, if_neg hc]

/-- Scanner characterization: after `parse`, each attribute holds exactly the
insertion-ordered grouping of the valid macros routed to it, and is absent
exactly when no macro was routed to it. -/
theorem parse_spec (lines : List String) (p : String) :
    getattrB (parse lines) p =
      if macrosFor p lines = [] then none
      else some (groupBy (macrosFor p lines)) := by
  induction lines using List.reverseRecOn with
  | nil => simp [parse, macrosFor, getattrB]
  | append_singleton lines line ih =>
      rw [parse_append, macrosFor_append]
      cases hv : validMacro line with
      | none =>
          rw [parseLine_invalid _ _ hv, macrosFor_single_invalid p line hv,
            List.append_nil]
          exact ih
      | some nv =>
          obtain ⟨name, v⟩ := nv
          rw [parseLine_valid _ _ _ _ hv,
            macrosFor_single_valid p line name v hv]
          cases hf : prefixes.find? (fun q => startswith q name) with
          | none =>
              rw [foldl_insert_none _ _ _ hf]
              have hnone : ¬ (Option.map attrOf (none : Option String) = some p) := by
                simp
              rw [if_neg hnone, List.append_nil]
              exact ih
          | some q =>
              rw [foldl_insert_some _ _ _ _ hf]
              rw [getattrB_setattrB]
              have hmap : Option.map attrOf (some q) = some (attrOf q) := rfl
              by_cases hpq : p = attrOf q
              · have hcond : Option.map attrOf (some q) = some p := by
                  rw [hmap, hpq]
                rw [if_pos hpq, if_pos hcond]
                have hold : (getattrB (parse lines) p).getD []
                    = groupBy (macrosFor p lines) := by
                  rw [ih]
                  by_cases hms : macrosFor p lines = []
                  · rw [if_pos hms, hms]
                    rfl
                  · rw [if_neg hms]
                    rfl
                rw [hpq] at hold ⊢
                rw [hold]
                have hne : macrosFor (attrOf q) lines ++ [(v, name)] ≠ [] := by
                  simp
                rw [if_neg hne, groupBy_append_pair]
              · have hcond : ¬ (Option.map attrOf (some q) = some p) := by
                  rw [hmap]
                  simp
                  exact fun hh => hpq hh.symm
                rw [if_neg hpq, if_neg hcond, List.append_nil]
                exact ih

/-! Characterizations of the emitters' loops. -/

theorem enumItems_eq (bs : Buckets) (h : ∀ b ∈ bs, b.2 ≠ []) :
    enumItems bs = some
      (bs.flatMap (fun b =>
        (if headStr b.2 = "EV_MAX" then [EnumVariant.unk] else []) ++
          [EnumVariant.entry (headStr b.2) b.1]),
       bs.flatMap (fun b =>
        if b.2.tail.isEmpty then [] else [(headStr b.2, b.2.tail)])) := by
  induction bs with
  | nil => rfl
  | cons b bs ih =>
      obtain ⟨v, ns⟩ := b
      cases ns with
      | nil => exact absurd rfl (h (v, []) (by simp))
      | cons n rest =>
          have ih' := ih (fun b hb => h b (by simp [hb]))
          simp only [enumItems, ih', Option.bind_eq_bind, Option.some_bind,
            List.flatMap_cons, headStr, List.headD_cons, List.tail_cons]
          by_cases hc : n = "EV_MAX" <;> simp [hc]

theorem btnItems_eq (bs : Buckets) (h : ∀ b ∈ bs, b.2 ≠ []) :
    btnItems bs = some
      (bs.map (fun b => EnumVariant.entry (headStr b.2) b.1),
       bs.flatMap (fun b =>
        if b.2.tail.isEmpty then [] else [(headStr b.2, b.2.tail)])) := by
  induction bs with
  | nil => rfl
  | cons b bs ih =>
      obtain ⟨v, ns⟩ := b
      cases ns with
      | nil => exact absurd rfl (h (v, []) (by simp))
      | cons n rest =>
          have ih' := ih (fun b hb => h b (by simp [hb]))
          simp [btnItems, ih', headStr]

theorem entriesOf_append (l1 l2 : List EnumVariant) :
    entriesOf (l1 ++ l2) = entriesOf l1 ++ entriesOf l2 := by
  simp [entriesOf]

theorem entriesOf_enum (bs : Buckets) :
    entriesOf (bs.flatMap (fun b =>
      (if headStr b.2 = "EV_MAX" then [EnumVariant.unk] else []) ++
        [EnumVariant.entry (headStr b.2) b.1]))
    = bs.map (fun b => (headStr b.2, b.1)) := by
  induction bs with
  | nil => rfl
  | cons b bs ih =>
      rw [List.flatMap_cons, entriesOf_append, ih]
      by_cases hc : headStr b.2 = "EV_MAX" <;> simp [hc, entriesOf]

theorem constsOf_append (l1 l2 : List (String × List String)) :
    constsOf (l1 ++ l2) = constsOf l1 ++ constsOf l2 := by
  simp [constsOf]

theorem constsOf_enum (bs : Buckets) :
    constsOf (bs.flatMap (fun b =>
      if b.2.tail.isEmpty then [] else [(headStr b.2, b.2.tail)]))
    = bs.flatMap (fun b => b.2.tail.map (fun a => (a, headStr b.2))) := by
  induction bs with
  | nil => rfl
  | cons b bs ih =>
      rw [List.flatMap_cons, constsOf_append, ih, List.flatMap_cons]
      by_cases hc : b.2.tail.isEmpty
      · have hnil : b.2.tail = [] := by simpa using hc
        simp [hc, hnil, constsOf]
      · simp [hc, constsOf]

theorem count_unk_enum (bs : Buckets) :
    (bs.flatMap (fun b =>
      (if headStr b.2 = "EV_MAX" then [EnumVariant.unk] else []) ++
        [EnumVariant.entry (headStr b.2) b.1])).count EnumVariant.unk
    = bs.countP (fun b => headStr b.2 == "EV_MAX") := by
  induction bs with
  | nil => rfl
  | cons b bs ih =>
      rw [List.flatMap_cons, List.count_append, ih, List.countP_cons]
      by_cases hc : headStr b.2 = "EV_MAX" <;> simp [hc, Nat.add_comm]

theorem lastValAfter_append (xs : Buckets) (x : Nat × List String) :
    ∀ lv : Option Nat, lastValAfter lv (xs ++ [x]) = some x.1 := by
  induction xs with
  | nil => intro lv; rfl
  | cons b xs ih => intro lv; exact ih (some b.1)

theorem convertArms_append_front :
    ∀ (front : Buckets) (lv : Option Nat) (rest : Buckets),
      (∀ b ∈ front, b.2 ≠ [] ∧ headStr b.2 ≠ "EV_MAX") →
      convertArms lv (front ++ rest)
        = (convertArms (lastValAfter lv front) rest).map
            (fun tail => front.map (fun b => Arm.exact b.1 (headStr b.2)) ++ tail) := by
  intro front
  induction front with
  | nil =>
      intro lv rest _
      cases convertArms lv rest <;> simp [lastValAfter]
  | cons b front ih =>
      intro lv rest h
      obtain ⟨v, ns⟩ := b
      cases ns with
      | nil => exact absurd rfl (h (v, []) (by simp)).1
      | cons n ns' =>
          have hn : ¬ n = "EV_MAX" := by
            simpa [headStr] using (h (v, n :: ns') (by simp)).2
          have ih' := ih (some v) rest (fun b hb => h b (by simp [hb]))
          simp only [List.cons_append, convertArms, if_neg hn,
            Option.bind_eq_bind, lastValAfter, headStr, List.headD_cons,
            List.append_eq]
          rw [ih']
          cases convertArms (lastValAfter (some v) front) rest <;> simp [headStr]

theorem convertArms_ok :
    ∀ (bs : Buckets) (lv : Nat), (∀ b ∈ bs, b.2 ≠ []) →
      ∃ arms, convertArms (some lv) bs = some arms := by
  intro bs
  induction bs with
  | nil => exact fun lv _ => ⟨[], rfl⟩
  | cons b bs ih =>
      intro lv h
      obtain ⟨v, ns⟩ := b
      cases ns with
      | nil => exact absurd rfl (h (v, []) (by simp))
      | cons n ns' =>
          obtain ⟨tail, htail⟩ := ih v (fun b hb => h b (by simp [hb]))
          by_cases hn : n = "EV_MAX"
          · exact ⟨Arm.range ((lv : Int) + 1) ((v : Int) - 1) ::
              Arm.exact v n :: tail, by simp [convertArms, htail, hn]⟩
          · exact ⟨Arm.exact v n :: tail, by simp [convertArms, htail, hn]⟩

theorem convertArms_evmax_first (v : Nat) (al : List String) (rest : Buckets) :
    convertArms none ((v, "EV_MAX" :: al) :: rest) = none := by
  simp only [convertArms]
  cases convertArms (some v) rest <;> simp

theorem convertArms_shape (front : Buckets) (vprev : Nat) (nsprev : List String)
    (vmax : Nat) (al : List String)
    (hfr : ∀ b ∈ front ++ [(vprev, nsprev)], b.2 ≠ [] ∧ headStr b.2 ≠ "EV_MAX") :
    convertArms none ((front ++ [(vprev, nsprev)]) ++ [(vmax, "EV_MAX" :: al)])
      = some (evArmsFor (front ++ [(vprev, nsprev)]) vprev vmax) := by
  rw [convertArms_append_front (front ++ [(vprev, nsprev)]) none _ hfr,
    lastValAfter_append]
  simp [convertArms, evArmsFor]

theorem evalArms_skip_exacts (c : Nat) :
    ∀ (fr : Buckets) (rest : List Arm), (∀ b ∈ fr, ¬ c = b.1) →
      evalArms c (fr.map (fun b => Arm.exact b.1 (headStr b.2)) ++ rest)
        = evalArms c rest := by
  intro fr
  induction fr with
  | nil => intro rest _; rfl
  | cons b fr ih =>
      intro rest h
      have hb : ¬ c = b.1 := h b (by simp)
      simp only [List.map_cons, List.cons_append, evalArms, if_neg hb]
      exact ih rest (fun b hb' => h b (by simp [hb']))

theorem evalArms_exact_hit :
    ∀ (fr : Buckets) (rest : List Arm) (b : Nat × List String), b ∈ fr →
      ((fr.map (fun x => x.1)).Nodup) →
      evalArms b.1 (fr.map (fun x => Arm.exact x.1 (headStr x.2)) ++ rest)
        = some (headStr b.2) := by
  intro fr
  induction fr with
  | nil => intro rest b hb; simp at hb
  | cons x fr ih =>
      intro rest b hb hnd
      rcases List.mem_cons.mp hb with hbx | hbf
      · subst hbx
        simp [evalArms]
      · have hnd' : x.1 ∉ fr.map (fun x => x.1) ∧ (fr.map (fun x => x.1)).Nodup := by
          rw [List.map_cons] at hnd
          exact List.nodup_cons.mp hnd
        have hx : x.1 ≠ b.1 := by
          intro hEq
          exact hnd'.1 (hEq ▸ List.mem_map.mpr ⟨b, hbf, rfl⟩)
        have hcb : ¬ b.1 = x.1 := fun hEq => hx hEq.symm
        simp only [List.map_cons, List.cons_append, evalArms, if_neg hcb]
        exact ih rest b hbf hnd'.2

theorem codeItems_eq (bs : Buckets) (h : ∀ b ∈ bs, b.2.length = 1) :
    codeItems bs = some (bs.flatMap (fun b => codePiece (headStr b.2))) := by
  induction bs with
  | nil => rfl
  | cons b bs ih =>
      obtain ⟨v, ns⟩ := b
      have hl : ns.length = 1 := h (v, ns) (by simp)
      obtain ⟨n, rfl⟩ : ∃ n, ns = [n] := by
        cases ns with
        | nil => simp at hl
        | cons a t =>
            cases t with
            | nil => exact ⟨a, rfl⟩
            | cons _ _ => simp at hl
      have ih' := ih (fun b hb => h b (by simp [hb]))
      simp only [codeItems, ih', Option.bind_eq_bind, Option.some_bind,
        List.flatMap_cons]
      unfold codePiece
      by_cases h1 : (strip3 n ++ "_") ∈ event_names
      · simp [h1, headStr]
      · by_cases h2 : n = "EV_FF_STATUS"
        · subst h2
          simp [h1, headStr]
        · by_cases h3 : n = "EV_MAX"
          · subst h3
            simp [h1, h2, headStr]
          · simp [h1, h2, h3, headStr]

theorem codeItems_err (bs : Buckets) (b : Nat × List String) (hb : b ∈ bs)
    (hlen : b.2.length ≠ 1) : codeItems bs = none := by
  induction bs with
  | nil => simp at hb
  | cons x bs ih =>
      rcases List.mem_cons.mp hb with hbx | hbs
      · subst hbx
        obtain ⟨v, ns⟩ := b
        cases ns with
        | nil => rfl
        | cons a t =>
            cases t with
            | nil => simp at hlen
            | cons _ _ => rfl
      · obtain ⟨v, ns⟩ := x
        cases ns with
        | nil => rfl
        | cons a t =>
            cases t with
            | nil => simp [codeItems, ih hbs]
            | cons _ _ => rfl

theorem countP_flatMap {α β : Type} (p : β → Bool) (f : α → List β) :
    ∀ l : List α, (l.flatMap f).countP p = (l.map (fun x => (f x).countP p)).sum := by
  intro l
  induction l with
  | nil => rfl
  | cons x l ih => simp [List.flatMap_cons, List.countP_append, ih]

theorem codePiece_count (m n : String) :
    (codePiece m).countP (bearsName n) = if m = n then 1 else 0 := by
  by_cases hmn : m = n
  · subst hmn
    rw [if_pos rfl]
    unfold codePiece
    by_cases h1 : (strip3 m ++ "_") ∈ event_names
    · simp [h1, bearsName, List.countP_cons]
    · by_cases h2 : m = "EV_FF_STATUS"
      · subst h2
        simp [h1, bearsName, List.countP_cons]
      · by_cases h3 : m = "EV_MAX"
        · subst h3
          simp [h1, h2, bearsName, List.countP_cons]
        · simp [h1, h2, h3, bearsName, List.countP_cons]
  · rw [if_neg hmn]
    unfold codePiece
    have hmn' : (m == n) = false := by simpa using hmn
    by_cases h1 : (strip3 m ++ "_") ∈ event_names
    · simp [h1, bearsName, List.countP_cons, hmn']
    · by_cases h2 : m = "EV_FF_STATUS"
      · subst h2
        simp [h1, bearsName, List.countP_cons, hmn']
      · by_cases h3 : m = "EV_MAX"
        · subst h3
          simp [h1, h2, bearsName, List.countP_cons, hmn']
        · simp [h1, h2, h3, bearsName, List.countP_cons, hmn']

theorem sum_count_one (n : String) :
    ∀ bs : Buckets, ((bs.map (fun b => headStr b.2)).Nodup) →
      ∀ b ∈ bs, headStr b.2 = n →
        (bs.map (fun x => if headStr x.2 = n then 1 else 0)).sum = 1 := by
  intro bs
  induction bs with
  | nil => intro _ b hb; simp at hb
  | cons x bs ih =>
      intro hnd b hb hbn
      have hnd' : headStr x.2 ∉ bs.map (fun b => headStr b.2) ∧
          (bs.map (fun b => headStr b.2)).Nodup := by
        rw [List.map_cons] at hnd
        exact List.nodup_cons.mp hnd
      rcases List.mem_cons.mp hb with hbx | hbs
      · have hxn : headStr x.2 = n := by rw [← hbx]; exact hbn
        have hz : (bs.map (fun x => if headStr x.2 = n then 1 else 0)).sum = 0 := by
          apply List.sum_eq_zero
          intro z hz'
          rcases List.mem_map.mp hz' with ⟨y, hy, rfl⟩
          have hyn : ¬ headStr y.2 = n := by
            intro hyn
            apply hnd'.1
            rw [hxn, ← hyn]
            exact List.mem_map.mpr ⟨y, hy, rfl⟩
          simp [hyn]
        rw [List.map_cons, List.sum_cons, if_pos hxn, hz]
      · have hxn : ¬ headStr x.2 = n := by
          intro hxe
          apply hnd'.1
          rw [hxe, ← hbn]
          exact List.mem_map.mpr ⟨b, hbs, rfl⟩
        rw [List.map_cons, List.sum_cons, if_neg hxn, ih hnd'.2 b hbs hbn]

theorem payload_mem_codePiece (m n : String) :
    CodeVariant.payload n n ∈ codePiece m ↔
      m = n ∧ (strip3 n ++ "_") ∈ event_names := by
  unfold codePiece
  by_cases h1 : (strip3 m ++ "_") ∈ event_names
  · rw [if_pos h1]
    simp only [List.mem_singleton, CodeVariant.payload.injEq]
    constructor
    · rintro ⟨rfl, -⟩
      exact ⟨rfl, h1⟩
    · rintro ⟨rfl, -⟩
      exact ⟨rfl, rfl⟩
  · rw [if_neg h1]
    by_cases h2 : m = "EV_FF_STATUS"
    · subst h2
      rw [if_pos rfl]
      simp only [List.mem_singleton, CodeVariant.payload.injEq]
      constructor
      · rintro ⟨rfl, h4⟩
        exact absurd h4 (by decide)
      · rintro ⟨rfl, h4⟩
        exact absurd h4 h1
    · by_cases h3 : m = "EV_MAX"
      · subst h3
        rw [if_neg h2, if_pos rfl]
        constructor
        · intro h
          rcases List.mem_cons.mp h with h | h
          · exact absurd h (by simp)
          · exact absurd (List.mem_singleton.mp h) (by simp)
        · rintro ⟨rfl, h4⟩
          exact absurd h4 h1
      · rw [if_neg h2, if_neg h3]
        constructor
        · intro h
          exact absurd (List.mem_singleton.mp h) (by simp)
        · rintro ⟨rfl, h4⟩
          exact absurd h4 h1

theorem plain_mem_codePiece (m n : String) :
    CodeVariant.plain n ∈ codePiece m ↔
      m = n ∧ ¬ (strip3 n ++ "_") ∈ event_names ∧ ¬ n = "EV_FF_STATUS" := by
  unfold codePiece
  by_cases h1 : (strip3 m ++ "_") ∈ event_names
  · rw [if_pos h1]
    constructor
    · intro h
      exact absurd (List.mem_singleton.mp h) (by simp)
    · rintro ⟨rfl, h4, -⟩
      exact absurd h1 h4
  · rw [if_neg h1]
    by_cases h2 : m = "EV_FF_STATUS"
    · subst h2
      rw [if_pos rfl]
      constructor
      · intro h
        exact absurd (List.mem_singleton.mp h) (by simp)
      · rintro ⟨rfl, -, h5⟩
        exact absurd rfl h5
    · by_cases h3 : m = "EV_MAX"
      · subst h3
        rw [if_neg h2, if_pos rfl]
        constructor
        · intro h
          rcases List.mem_cons.mp h with h | h
          · exact absurd h (by simp)
          · have hn : n = "EV_MAX" := by
              simpa using List.mem_singleton.mp h
            subst hn
            exact ⟨rfl, h1, h2⟩
        · rintro ⟨rfl, -, -⟩
          simp
      · rw [if_neg h2, if_neg h3]
        constructor
        · intro h
          have hn : n = m := by
            simpa using List.mem_singleton.mp h
          subst hn
          exact ⟨rfl, h1, h2⟩
        · rintro ⟨rfl, -, -⟩
          simp

theorem unk_mem_codePiece (m : String) :
    CodeVariant.unkPayload ∈ codePiece m ↔ m = "EV_MAX" := by
  unfold codePiece
  by_cases h1 : (strip3 m ++ "_") ∈ event_names
  · rw [if_pos h1]
    constructor
    · intro h
      exact absurd (List.mem_singleton.mp h) (by simp)
    · rintro rfl
      exact absurd h1 (by decide)
  · rw [if_neg h1]
    by_cases h2 : m = "EV_FF_STATUS"
    · subst h2
      rw [if_pos rfl]
      constructor
      · intro h
        exact absurd (List.mem_singleton.mp h) (by simp)
      · intro h
        exact absurd h (by decide)
    · by_cases h3 : m = "EV_MAX"
      · subst h3
        rw [if_neg h2, if_pos rfl]
        simp
      · rw [if_neg h2, if_neg h3]
        constructor
        · intro h
          exact absurd (List.mem_singleton.mp h) (by simp)
        · intro h
          exact absurd h h3

theorem codePiece_unk_count (m : String) :
    (codePiece m).countP (fun v => v == CodeVariant.unkPayload)
      = if m = "EV_MAX" then 1 else 0 := by
  unfold codePiece
  by_cases h1 : (strip3 m ++ "_") ∈ event_names
  · have hm : ¬ m = "EV_MAX" := by
      rintro rfl
      exact absurd h1 (by decide)
    rw [if_pos h1, if_neg hm]
    simp [List.countP_cons]
  · rw [if_neg h1]
    by_cases h2 : m = "EV_FF_STATUS"
    · subst h2
      rw [if_pos rfl, if_neg (by decide)]
      simp [List.countP_cons]
    · by_cases h3 : m = "EV_MAX"
      · subst h3
        rw [if_neg h2, if_pos rfl, if_pos rfl]
        simp [List.countP_cons]
      · rw [if_neg h2, if_neg h3, if_neg h3]
        simp [List.countP_cons]

theorem count_unk_code (bs : Buckets) :
    (bs.flatMap (fun b => codePiece (headStr b.2))).countP
        (fun v => v == CodeVariant.unkPayload)
      = bs.countP (fun b => headStr b.2 == "EV_MAX") := by
  induction bs with
  | nil => rfl
  | cons b bs ih =>
      rw [List.flatMap_cons, List.countP_append, ih, List.countP_cons,
        codePiece_unk_count]
      by_cases hc : headStr b.2 = "EV_MAX" <;> simp [hc, Nat.add_comm]

theorem print_enums_eq_nonkey (bits : Bits) (p : String) (bs : Buckets)
    (hp : ¬ p = "key") (hb : getattrB bits p = some bs)
    (h : ∀ b ∈ bs, b.2 ≠ []) :
    print_enums bits p = Emit.ok
      ⟨bs.flatMap (fun b =>
          (if headStr b.2 = "EV_MAX" then [EnumVariant.unk] else []) ++
            [EnumVariant.entry (headStr b.2) b.1]),
       constsOf (bs.flatMap (fun b =>
          if b.2.tail.isEmpty then [] else [(headStr b.2, b.2.tail)]))⟩ := by
  simp only [print_enums, hb, enumItems_eq bs h, if_neg hp]

theorem print_enums_eq_key (bits : Bits) (bsk bsb : Buckets)
    (hbk : getattrB bits "key" = some bsk) (hbb : getattrB bits "btn" = some bsb)
    (hk : ∀ b ∈ bsk, b.2 ≠ []) (hbn : ∀ b ∈ bsb, b.2 ≠ []) :
    print_enums bits "key" = Emit.ok
      ⟨(bsk.flatMap (fun b =>
          (if headStr b.2 = "EV_MAX" then [EnumVariant.unk] else []) ++
            [EnumVariant.entry (headStr b.2) b.1])) ++
          bsb.map (fun b => EnumVariant.entry (headStr b.2) b.1),
       constsOf ((bsk.flatMap (fun b =>
          if b.2.tail.isEmpty then [] else [(headStr b.2, b.2.tail)])) ++
          (bsb.flatMap (fun b =>
          if b.2.tail.isEmpty then [] else [(headStr b.2, b.2.tail)])))⟩ := by
  simp only [print_enums, hbk, enumItems_eq bsk hk, hbb, btnItems_eq bsb hbn,
    if_pos]

theorem print_convert_eq_nonkey (bits : Bits) (p : String) (bs : Buckets)
    (arms : List Arm) (hp : ¬ p = "key") (hb : getattrB bits p = some bs)
    (hc : convertArms none bs = some arms) :
    print_enums_convert_fn bits p = Emit.ok arms := by
  simp only [print_enums_convert_fn, hb, hc, if_neg hp]

theorem print_convert_err_evmax_first (bits : Bits) (v : Nat) (al : List String)
    (rest : Buckets) (hb : getattrB bits "ev" = some ((v, "EV_MAX" :: al) :: rest)) :
    print_enums_convert_fn bits "ev" = Emit.err := by
  simp only [print_enums_convert_fn, hb, convertArms_evmax_first]

theorem print_event_code_ok (bits : Bits) (p : String) (bs : Buckets)
    (hp : ¬ p = "key") (hb : getattrB bits p = some bs)
    (h : ∀ b ∈ bs, b.2.length = 1) :
    print_event_code bits p
      = Emit.ok (bs.flatMap (fun b => codePiece (headStr b.2))) := by
  simp only [print_event_code, hb, codeItems_eq bs h, if_neg hp]

theorem print_event_code_err (bits : Bits) (p : String) (bs : Buckets)
    (b : Nat × List String) (hb : getattrB bits p = some bs) (hbmem : b ∈ bs)
    (hlen : b.2.length ≠ 1) : print_event_code bits p = Emit.err := by
  simp only [print_event_code, hb, codeItems_err bs b hbmem hlen]

theorem idents_align :
    ∀ (bs : Buckets) (lv : Option Nat) (arms : List Arm)
      (vs : List EnumVariant) (assoc : List (String × List String)),
      convertArms lv bs = some arms → enumItems bs = some (vs, assoc) →
      armIdents arms = variantIdents vs := by
  intro bs
  induction bs with
  | nil =>
      intro lv arms vs assoc h1 h2
      simp only [convertArms] at h1
      simp only [enumItems] at h2
      cases h1
      cases h2
      rfl
  | cons b bs ih =>
      intro lv arms vs assoc h1 h2
      obtain ⟨v, ns⟩ := b
      cases ns with
      | nil => simp [convertArms] at h1
      | cons n rest' =>
          cases hc : convertArms (some v) bs with
          | none => simp [convertArms, hc] at h1
          | some tail =>
              cases he : enumItems bs with
              | none => simp [enumItems, he] at h2
              | some pa =>
                  obtain ⟨vs', assoc'⟩ := pa
                  have hIH := ih (some v) tail vs' assoc' hc he
                  have h2' : vs = (if n = "EV_MAX" then [EnumVariant.unk] else [])
                      ++ EnumVariant.entry n v :: vs' := by
                    simp only [enumItems, he, Option.bind_eq_bind,
                      Option.some_bind] at h2
                    cases h2
                    rfl
                  by_cases hn : n = "EV_MAX"
                  · subst hn
                    cases lv with
                    | none => simp [convertArms, hc] at h1
                    | some lvv =>
                        have h1' : arms = Arm.range ((lvv : Int) + 1)
                            ((v : Int) - 1) :: Arm.exact v "EV_MAX" :: tail := by
                          simp only [convertArms, hc,
                            Option.bind_eq_bind, Option.some_bind] at h1
                          cases h1
                          rfl
                        subst h1'
                        subst h2'
                        simp [armIdents, variantIdents, hIH]
                  · have h1' : arms = Arm.exact v n :: tail := by
                      simp only [convertArms, hc, if_neg hn,
                        Option.bind_eq_bind, Option.some_bind] at h1
                      cases h1
                      rfl
                    subst h1'
                    subst h2'
                    simp [armIdents, variantIdents, hn, hIH]

theorem idents_align_btn :
    ∀ (bs : Buckets) (arms : List Arm)
      (vs : List EnumVariant) (assoc : List (String × List String)),
      btnArms bs = some arms → btnItems bs = some (vs, assoc) →
      armIdents arms = variantIdents vs := by
  intro bs
  induction bs with
  | nil =>
      intro arms vs assoc h1 h2
      simp only [btnArms] at h1
      simp only [btnItems] at h2
      cases h1
      cases h2
      rfl
  | cons b bs ih =>
      intro arms vs assoc h1 h2
      obtain ⟨v, ns⟩ := b
      cases ns with
      | nil => simp [btnArms] at h1
      | cons n rest' =>
          cases hc : btnArms bs with
          | none => simp [btnArms, hc] at h1
          | some tail =>
              cases he : btnItems bs with
              | none => simp [btnItems, he] at h2
              | some pa =>
                  obtain ⟨vs', assoc'⟩ := pa
                  have hIH := ih tail vs' assoc' hc he
                  have h1' : arms = Arm.exact v n :: tail := by
                    simp only [btnArms, hc, Option.bind_eq_bind,
                      Option.some_bind] at h1
                    cases h1
                    rfl
                  have h2' : vs = EnumVariant.entry n v :: vs' := by
                    simp only [btnItems, he, Option.bind_eq_bind,
                      Option.some_bind] at h2
                    cases h2
                    rfl
                  subst h1'
                  subst h2'
                  simp [armIdents, variantIdents, hIH]

theorem entriesOf_btnmap (bs : Buckets) :
    entriesOf (bs.map (fun b => EnumVariant.entry (headStr b.2) b.1))
      = bs.map (fun b => (headStr b.2, b.1)) := by
  induction bs with
  | nil => rfl
  | cons b bs ih => simp [entriesOf] at ih ⊢; exact ih

theorem armIdents_append (l1 l2 : List Arm) :
    armIdents (l1 ++ l2) = armIdents l1 ++ armIdents l2 := by
  induction l1 with
  | nil => rfl
  | cons a l1 ih =>
      cases a <;> simp [armIdents, ih]

theorem variantIdents_append (l1 l2 : List EnumVariant) :
    variantIdents (l1 ++ l2) = variantIdents l1 ++ variantIdents l2 := by
  induction l1 with
  | nil => rfl
  | cons a l1 ih =>
      cases a <;> simp [variantIdents, ih]

theorem btnArms_ok (bs : Buckets) (hne : ∀ b ∈ bs, b.2 ≠ []) :
    ∃ arms, btnArms bs = some arms := by
  induction bs with
  | nil => exact ⟨[], rfl⟩
  | cons b bs ih =>
      obtain ⟨v, ns⟩ := b
      cases ns with
      | nil => exact absurd rfl (hne (v, []) (by simp))
      | cons n ns' =>
          obtain ⟨tail, htail⟩ := ih (fun b hb => hne b (by simp [hb]))
          exact ⟨Arm.exact v n :: tail, by simp [btnArms, htail]⟩

theorem convertArms_ok_top (bs : Buckets) (hne : ∀ b ∈ bs, b.2 ≠ [])
    (hfirst : ∀ b0 rest, bs = b0 :: rest → headStr b0.2 ≠ "EV_MAX") :
    ∃ arms, convertArms none bs = some arms := by
  cases bs with
  | nil => exact ⟨[], rfl⟩
  | cons b0 rest =>
      obtain ⟨v, ns⟩ := b0
      cases ns with
      | nil => exact absurd rfl (hne (v, []) (by simp))
      | cons n ns' =>
          have hn : ¬ n = "EV_MAX" := by
            simpa [headStr] using hfirst (v, n :: ns') rest rfl
          obtain ⟨tail, htail⟩ :=
            convertArms_ok rest v (fun b hb => hne b (by simp [hb]))
          exact ⟨Arm.exact v n :: tail, by simp [convertArms, htail, hn]⟩

theorem print_convert_eq_key (bits : Bits) (bsk bsb : Buckets)
    (armsk armsb : List Arm)
    (hbk : getattrB bits "key" = some bsk) (hbb : getattrB bits "btn" = some bsb)
    (hck : convertArms none bsk = some armsk) (hcb : btnArms bsb = some armsb) :
    print_enums_convert_fn bits "key" = Emit.ok (armsk ++ armsb) := by
  simp only [print_enums_convert_fn, hbk, hck, hbb, hcb, if_pos]

/-! Claim theorems. -/

/-- C1 counterexample: the claim says buckets built from earlier files are
retained and later files append to them, so for the two files
`#define EV_SYN 0` and `#define EV_KEY 1` the state used to emit the second
file would hold both macros; in fact `parse` builds a fresh state per file
and the second file's state holds only `EV_KEY`. -/
theorem c1_counterexample :
    (processedBits [["#define EV_SYN 0"], ["#define EV_KEY 1"]])[1]?
      = some [("ev", [(1, ["EV_KEY"])])] ∧
    ¬ (0, ["EV_SYN"]) ∈ [(1, ["EV_KEY"])] := by
  constructor
  · decide
  · decide

/-- C1 (amended): the accumulator is reset between files — each processed
file is parsed into a fresh state, so the state used to emit the i-th
file's output depends only on the i-th file's contents. -/
theorem c1_amended (fs gs : List (List String)) (i : Nat)
    (h : fs[i]? = gs[i]?) :
    (processedBits fs)[i]? = (processedBits gs)[i]? := by
  simp [processedBits, h]

/-- C1 witness: the state for the second of two files equals the state
obtained when the first file is replaced by an empty file. -/
theorem c1_witness :
    (processedBits [["#define EV_SYN 0"], ["#define EV_KEY 1"]])[1]?
      = (processedBits [[], ["#define EV_KEY 1"]])[1]? :=
  c1_amended [["#define EV_SYN 0"], ["#define EV_KEY 1"]]
    [[], ["#define EV_KEY 1"]] 1 (by decide)

/-- C2: with no path argument the program prints the usage message and exits
with status 2; with one path it opens argv index 1 and still exits with
status 2; with two or more paths it opens exactly argv indices 1 and
`argc - 1` (first and last path), no middle index, and exits with status 0. -/
theorem c2 (argc : Nat) (h : 3 ≤ argc) :
    mainOpened 1 = (true, [], 2) ∧
    mainOpened 2 = (false, [1], 2) ∧
    mainOpened argc = (false, [1, argc - 1], 0) ∧
    ∀ j, 1 < j → j < argc - 1 → ¬ j ∈ (mainOpened argc).2.1 := by
  refine ⟨rfl, rfl, ?_, ?_⟩
  · unfold mainOpened
    rw [if_neg (by omega), if_neg (by omega)]
  · intro j hj1 hj2 hmem
    unfold mainOpened at hmem
    rw [if_neg (by omega), if_neg (by omega)] at hmem
    simp at hmem
    rcases hmem with rfl | rfl
    · omega
    · omega

/-- C2 witness at five argv entries (four paths): indices 1 and 4 are opened,
index 2 is not, and the exit status is 0. -/
theorem c2_witness :
    mainOpened 5 = (false, [1, 4], 0) ∧ ¬ 2 ∈ (mainOpened 5).2.1 :=
  ⟨(c2 5 (by decide)).2.2.1, (c2 5 (by decide)).2.2.2 2 (by decide) (by decide)⟩

/-- C7: a line that does not start with `#define`, or fails the macro regex,
or names a blacklisted macro, or whose value token is not a valid integer
literal, or whose name matches no recognized prefix, leaves the accumulated
state completely unchanged. -/
theorem c7 (bits : Bits) (line : String)
    (h : startswith "#define" line = false
       ∨ matchDefine line = none
       ∨ (∃ name valTok, matchDefine line = some (name, valTok) ∧
           (name ∈ blacklist ∨ parsePyInt valTok = none ∨
             ∀ q ∈ prefixes, startswith q name = false))) :
    parseLine bits line = bits := by
  rcases h with h | h | ⟨name, valTok, hm, hcase⟩
  · simp [parseLine, h]
  · cases hs : startswith "#define" line
    · simp [parseLine, hs]
    · simp [parseLine, parse_define, hs, h]
  · cases hs : startswith "#define" line
    · simp [parseLine, hs]
    · rcases hcase with hb | hi | hnp
      · simp [parseLine, parse_define, hs, hm, hb]
      · by_cases hbl : name ∈ blacklist
        · simp [parseLine, parse_define, hs, hm, hbl]
        · simp [parseLine, parse_define, hs, hm, hbl, hi]
      · by_cases hbl : name ∈ blacklist
        · simp [parseLine, parse_define, hs, hm, hbl]
        · cases hi : parsePyInt valTok with
          | none => simp [parseLine, parse_define, hs, hm, hbl, hi]
          | some v =>
              have hfix : prefixes.foldl (insertByPfx name v) bits = bits :=
                foldl_fix _ _ _ (fun x q hq => by simp [insertByPfx, hnp q hq])
              simp [parseLine, parse_define, hs, hm, hbl, hi, hfix]

/-- C7 witness: one concrete line for each silent-skip reason, each leaving
the empty state unchanged. -/
theorem c7_witness :
    parseLine [] "typedef int x;" = [] ∧
    parseLine [] "#define    " = [] ∧
    parseLine [] "#define EV_VERSION 0x010001" = [] ∧
    parseLine [] "#define KEY_A KEY_B" = [] ∧
    parseLine [] "#define FOO_BAR 42" = [] := by
  refine ⟨?_, ?_, ?_, ?_, ?_⟩
  · exact c7 [] _ (Or.inl (by decide))
  · exact c7 [] _ (Or.inr (Or.inl (by decide)))
  · exact c7 [] _ (Or.inr (Or.inr
      ⟨"EV_VERSION", "0x010001", by decide, Or.inl (by decide)⟩))
  · exact c7 [] _ (Or.inr (Or.inr
      ⟨"KEY_A", "KEY_B", by decide, Or.inr (Or.inl (by decide))⟩))
  · exact c7 [] _ (Or.inr (Or.inr
      ⟨"FOO_BAR", "42", by decide, Or.inr (Or.inr (by decide))⟩))

/-- C4 counterexample: with input `#define EV_SYN 0`, `#define EV_KEY 1`,
the value 1 appears under the event-type prefix and equals the maximum value
of the group, yet the emitted enumeration contains no unknown variant at all
(the claim demands exactly one): the emitter keys the unknown variant on the
canonical name `EV_MAX`, not on the maximum value. -/
theorem c4_counterexample :
    print_enums (parse ["#define EV_SYN 0", "#define EV_KEY 1"]) "ev"
      = Emit.ok ⟨[EnumVariant.entry "EV_SYN" 0, EnumVariant.entry "EV_KEY" 1],
          []⟩ ∧
    ¬ EnumVariant.unk ∈
        [EnumVariant.entry "EV_SYN" 0, EnumVariant.entry "EV_KEY" 1] ∧
    (1, ["EV_KEY"]) ∈
      (getattrB (parse ["#define EV_SYN 0", "#define EV_KEY 1"]) "ev").getD [] ∧
    ∀ b ∈ (getattrB (parse ["#define EV_SYN 0", "#define EV_KEY 1"]) "ev").getD [],
      b.1 ≤ 1 := by
  refine ⟨by decide, by decide, by decide, by decide⟩

/-- C4 (amended): the unknown variant is keyed on the canonical bucket name
`EV_MAX`, not on the maximum value: the enumeration body consists, bucket by
bucket, of `EV_UNK` immediately before the entry of every bucket whose
canonical name is `EV_MAX` (hence exactly one `EV_UNK`, directly before the
`EV_MAX` entry, when exactly one such bucket exists), and contains no
`EV_UNK` when no bucket is canonically named `EV_MAX`. -/
theorem c4_amended (bits : Bits) (bs : Buckets)
    (hb : getattrB bits "ev" = some bs) (h : ∀ b ∈ bs, b.2 ≠ []) :
    print_enums bits "ev" = Emit.ok
      ⟨bs.flatMap (fun b =>
          (if headStr b.2 = "EV_MAX" then [EnumVariant.unk] else []) ++
            [EnumVariant.entry (headStr b.2) b.1]),
       constsOf (bs.flatMap (fun b =>
          if b.2.tail.isEmpty then [] else [(headStr b.2, b.2.tail)]))⟩ ∧
    (emitD ⟨[], []⟩ (print_enums bits "ev")).variants.count EnumVariant.unk
      = bs.countP (fun b => headStr b.2 == "EV_MAX") := by
  have he := print_enums_eq_nonkey bits "ev" bs (by decide) hb h
  refine ⟨he, ?_⟩
  rw [he]
  exact count_unk_enum bs

/-- C4 witness: on `EV_SYN 0`, `EV_MAX 0x1f` the enumeration is
`EV_SYN`, then `EV_UNK` immediately before `EV_MAX`, with exactly one
`EV_UNK`. -/
theorem c4_witness :
    print_enums (parse ["#define EV_SYN 0", "#define EV_MAX 0x1f"]) "ev"
      = Emit.ok ⟨[EnumVariant.entry "EV_SYN" 0, EnumVariant.unk,
          EnumVariant.entry "EV_MAX" 31], []⟩ ∧
    (emitD ⟨[], []⟩ (print_enums (parse ["#define EV_SYN 0",
        "#define EV_MAX 0x1f"]) "ev")).variants.count EnumVariant.unk = 1 := by
  have h := c4_amended (parse ["#define EV_SYN 0", "#define EV_MAX 0x1f"])
    [(0, ["EV_SYN"]), (31, ["EV_MAX"])] (by decide) (by decide)
  refine ⟨?_, ?_⟩
  · rw [h.1]
    decide
  · rw [h.2]
    decide

/-- C10: the conversion-function emitter computes the unknown-range lower
bound from the bucket iterated immediately before the `EV_MAX`-named bucket:
when the `EV_MAX`-named bucket comes first it aborts on the unbound
`last_val` instead of emitting a function; when the first bucket is not
named `EV_MAX` (and name lists are non-empty) it emits a function; and when
some bucket precedes the `EV_MAX` bucket, the emitted range arm's lower
bound is that preceding bucket's value plus one. -/
theorem c10 (bits : Bits) (bs : Buckets) (hb : getattrB bits "ev" = some bs) :
    (∀ v al rest, bs = (v, "EV_MAX" :: al) :: rest →
        print_enums_convert_fn bits "ev" = Emit.err) ∧
    (∀ b0 rest, bs = b0 :: rest → b0.2 ≠ [] → headStr b0.2 ≠ "EV_MAX" →
        (∀ b ∈ rest, b.2 ≠ []) →
        print_enums_convert_fn bits "ev" ≠ Emit.err ∧
        print_enums_convert_fn bits "ev" ≠ Emit.skip) ∧
    (∀ front vprev nsprev vmax al,
        bs = (front ++ [(vprev, nsprev)]) ++ [(vmax, "EV_MAX" :: al)] →
        (∀ b ∈ front ++ [(vprev, nsprev)], b.2 ≠ [] ∧ headStr b.2 ≠ "EV_MAX") →
        print_enums_convert_fn bits "ev"
          = Emit.ok (evArmsFor (front ++ [(vprev, nsprev)]) vprev vmax)) := by
  refine ⟨?_, ?_, ?_⟩
  · intro v al rest heq
    subst heq
    exact print_convert_err_evmax_first bits v al rest hb
  · intro b0 rest heq hne0 hnm0 hner
    subst heq
    obtain ⟨arms, harms⟩ := convertArms_ok_top (b0 :: rest)
      (by
        intro b hbm
        rcases List.mem_cons.mp hbm with rfl | hbm
        · exact hne0
        · exact hner b hbm)
      (by
        intro c0 crest hcc
        have h1 : c0 = b0 := by
          injection hcc with h1 h2
          rw [h1]
        rw [h1]
        exact hnm0)
    have hok := print_convert_eq_nonkey bits "ev" (b0 :: rest) arms
      (by decide) hb harms
    rw [hok]
    exact ⟨by simp, by simp⟩
  · intro front vprev nsprev vmax al heq hfr
    subst heq
    exact print_convert_eq_nonkey bits "ev" _ _ (by decide) hb
      (convertArms_shape front vprev nsprev vmax al hfr)

/-- C10 witness: with `EV_MAX` scanned first the emitter aborts; with
`EV_SYN 0`, `EV_KEY 1`, `EV_MAX 0x1f` it emits the range arm `2..=30`
whose lower bound is the preceding bucket's value 1 plus one. -/
theorem c10_witness :
    print_enums_convert_fn
        (parse ["#define EV_MAX 0x1f", "#define EV_SYN 0"]) "ev" = Emit.err ∧
    print_enums_convert_fn
        (parse ["#define EV_SYN 0", "#define EV_KEY 1", "#define EV_MAX 0x1f"])
        "ev"
      = Emit.ok (evArmsFor [(0, ["EV_SYN"]), (1, ["EV_KEY"])] 1 31) := by
  constructor
  · exact (c10 (parse ["#define EV_MAX 0x1f", "#define EV_SYN 0"])
      [(31, ["EV_MAX"]), (0, ["EV_SYN"])] (by decide)).1 31 [] [(0, ["EV_SYN"])]
      (by decide)
  · exact (c10 (parse ["#define EV_SYN 0", "#define EV_KEY 1",
      "#define EV_MAX 0x1f"])
      [(0, ["EV_SYN"]), (1, ["EV_KEY"]), (31, ["EV_MAX"])] (by decide)).2.2
      [(0, ["EV_SYN"])] 1 ["EV_KEY"] 31 [] (by decide) (by decide)

/-- C9: the tagged event-code emitter destructures every event-type bucket
as a one-element list, so an input where two event-type macros share a value
makes it fail, while the scanner accepts the aliases and both the
enumeration emitter and the conversion-function emitter still succeed on
the same state. -/
theorem c9 (bits : Bits) (bs : Buckets)
    (hb : getattrB bits "ev" = some bs)
    (hne : ∀ b ∈ bs, b.2 ≠ [])
    (hdup : ∃ b ∈ bs, 2 ≤ b.2.length)
    (hfirst : ∀ b0 rest, bs = b0 :: rest → headStr b0.2 ≠ "EV_MAX") :
    print_event_code bits "ev" = Emit.err ∧
    print_enums bits "ev" ≠ Emit.err ∧ print_enums bits "ev" ≠ Emit.skip ∧
    print_enums_convert_fn bits "ev" ≠ Emit.err ∧
    print_enums_convert_fn bits "ev" ≠ Emit.skip := by
  obtain ⟨b, hbm, hblen⟩ := hdup
  refine ⟨?_, ?_, ?_, ?_, ?_⟩
  · exact print_event_code_err bits "ev" bs b hb hbm (by omega)
  · rw [print_enums_eq_nonkey bits "ev" bs (by decide) hb hne]
    simp
  · rw [print_enums_eq_nonkey bits "ev" bs (by decide) hb hne]
    simp
  · obtain ⟨arms, harms⟩ := convertArms_ok_top bs hne hfirst
    rw [print_convert_eq_nonkey bits "ev" bs arms (by decide) hb harms]
    simp
  · obtain ⟨arms, harms⟩ := convertArms_ok_top bs hne hfirst
    rw [print_convert_eq_nonkey bits "ev" bs arms (by decide) hb harms]
    simp

/-- C9 witness: `EV_REP` and `EV_ALT` share value 1; the event-code emitter
fails, the enumeration emitter succeeds. -/
theorem c9_witness :
    print_event_code
        (parse ["#define EV_SYN 0", "#define EV_REP 1", "#define EV_ALT 1"])
        "ev" = Emit.err ∧
    print_enums
        (parse ["#define EV_SYN 0", "#define EV_REP 1", "#define EV_ALT 1"])
        "ev" ≠ Emit.err := by
  have h := c9
    (parse ["#define EV_SYN 0", "#define EV_REP 1", "#define EV_ALT 1"])
    [(0, ["EV_SYN"]), (1, ["EV_REP", "EV_ALT"])] (by decide) (by decide)
    ⟨(1, ["EV_REP", "EV_ALT"]), by decide, by decide⟩
    (by
      intro b0 rest hcc
      have h1 : b0 = (0, ["EV_SYN"]) := by
        injection hcc with h1 h2
        rw [← h1]
      rw [h1]
      decide)
  exact ⟨h.1, h.2.1⟩

/-- C3: on an event-type group whose buckets are in strictly increasing
value order and whose last bucket is canonically named `EV_MAX` (the shape
the Linux header produces, where `EV_MAX` is the highest value and the
bucket before it holds the second-highest), the emitted conversion function
maps every integer strictly between the second-highest and the highest
value to the unknown variant, maps the highest value itself to `EV_MAX`
(the range arm stops at `vmax - 1`, so it does not shadow the exact arm
emitted after it), maps every other known discriminant to its canonical
variant, and maps every remaining integer to the absent result via the
default arm evaluated last. -/
theorem c3 (bits : Bits) (front : Buckets) (vprev : Nat) (nsprev : List String)
    (vmax : Nat) (al : List String)
    (hb : getattrB bits "ev"
        = some ((front ++ [(vprev, nsprev)]) ++ [(vmax, "EV_MAX" :: al)]))
    (hfr : ∀ b ∈ front ++ [(vprev, nsprev)], b.2 ≠ [] ∧ headStr b.2 ≠ "EV_MAX")
    (hsorted : (((front ++ [(vprev, nsprev)]) ++ [(vmax, "EV_MAX" :: al)]).map
        (fun b => b.1)).Pairwise (· < ·)) :
    print_enums_convert_fn bits "ev"
      = Emit.ok (evArmsFor (front ++ [(vprev, nsprev)]) vprev vmax) ∧
    (∀ c : Nat, vprev < c → c < vmax →
      evalArms c (evArmsFor (front ++ [(vprev, nsprev)]) vprev vmax)
        = some "EV_UNK") ∧
    evalArms vmax (evArmsFor (front ++ [(vprev, nsprev)]) vprev vmax)
      = some "EV_MAX" ∧
    (∀ b ∈ front ++ [(vprev, nsprev)],
      evalArms b.1 (evArmsFor (front ++ [(vprev, nsprev)]) vprev vmax)
        = some (headStr b.2)) ∧
    (∀ c : Nat, ¬ c ∈ (front ++ [(vprev, nsprev)]).map (fun b => b.1) →
      ¬ c = vmax → ¬ (vprev < c ∧ c < vmax) →
      evalArms c (evArmsFor (front ++ [(vprev, nsprev)]) vprev vmax) = none) := by
  have hshape := convertArms_shape front vprev nsprev vmax al hfr
  have hok := print_convert_eq_nonkey bits "ev" _ _ (by decide) hb hshape
  have hmap : (((front ++ [(vprev, nsprev)]) ++ [(vmax, "EV_MAX" :: al)]).map
      (fun b => b.1))
      = (front ++ [(vprev, nsprev)]).map (fun b => b.1) ++ [vmax] := by simp
  rw [hmap] at hsorted
  have hsplit := List.pairwise_append.mp hsorted
  have hltmax : ∀ b ∈ front ++ [(vprev, nsprev)], b.1 < vmax := by
    intro b hbm
    exact hsplit.2.2 b.1 (List.mem_map.mpr ⟨b, hbm, rfl⟩) vmax (by simp)
  have hmap2 : ((front ++ [(vprev, nsprev)]).map (fun b => b.1))
      = front.map (fun b => b.1) ++ [vprev] := by simp
  have hpair2 : (front.map (fun b => b.1) ++ [vprev]).Pairwise (· < ·) := by
    rw [← hmap2]
    exact hsplit.1
  have hle : ∀ b ∈ front ++ [(vprev, nsprev)], b.1 ≤ vprev := by
    intro b hbm
    rcases List.mem_append.mp hbm with hbf | hbl
    · have := (List.pairwise_append.mp hpair2).2.2 b.1
        (List.mem_map.mpr ⟨b, hbf, rfl⟩) vprev (by simp)
      omega
    · have hbe : b = (vprev, nsprev) := by simpa using hbl
      rw [hbe]
  have hnd : ((front ++ [(vprev, nsprev)]).map (fun b => b.1)).Nodup := by
    rw [hmap2]
    exact hpair2.imp (fun h => Nat.ne_of_lt h)
  refine ⟨hok, ?_, ?_, ?_, ?_⟩
  · intro c h1c h2c
    unfold evArmsFor
    rw [evalArms_skip_exacts c (front ++ [(vprev, nsprev)]) _
      (fun b hbm => by have := hle b hbm; omega)]
    have hcond : ((vprev : Int) + 1 ≤ (c : Int) ∧
        (c : Int) ≤ (vmax : Int) - 1) := by
      constructor <;> omega
    simp [evalArms, hcond]
  · unfold evArmsFor
    rw [evalArms_skip_exacts vmax (front ++ [(vprev, nsprev)]) _
      (fun b hbm => by have := hltmax b hbm; omega)]
    have hcond : ¬ ((vprev : Int) + 1 ≤ (vmax : Int) ∧
        (vmax : Int) ≤ (vmax : Int) - 1) := by omega
    simp [evalArms, hcond]
  · intro b hbm
    unfold evArmsFor
    exact evalArms_exact_hit (front ++ [(vprev, nsprev)]) _ b hbm hnd
  · intro c hc1 hc2 hc3
    unfold evArmsFor
    rw [evalArms_skip_exacts c (front ++ [(vprev, nsprev)]) _
      (fun b hbm hEq => hc1 (by rw [hEq]; exact List.mem_map.mpr ⟨b, hbm, rfl⟩))]
    have hcond : ¬ ((vprev : Int) + 1 ≤ (c : Int) ∧
        (c : Int) ≤ (vmax : Int) - 1) := by omega
    simp [evalArms, hcond, hc2]

/-- C3 witness at the spec's own example `EV_SYN 0x00`, `EV_KEY 0x01`,
`EV_MAX 0x1f`: 17 (strictly between 1 and 31) maps to the unknown variant,
31 maps to `EV_MAX`, 1 maps to `EV_KEY`, and 99 maps to the absent result. -/
theorem c3_witness :
    print_enums_convert_fn
        (parse ["#define EV_SYN 0x00", "#define EV_KEY 0x01",
          "#define EV_MAX 0x1f"]) "ev"
      = Emit.ok (evArmsFor [(0, ["EV_SYN"]), (1, ["EV_KEY"])] 1 31) ∧
    evalArms 17 (evArmsFor [(0, ["EV_SYN"]), (1, ["EV_KEY"])] 1 31)
      = some "EV_UNK" ∧
    evalArms 31 (evArmsFor [(0, ["EV_SYN"]), (1, ["EV_KEY"])] 1 31)
      = some "EV_MAX" ∧
    evalArms 1 (evArmsFor [(0, ["EV_SYN"]), (1, ["EV_KEY"])] 1 31)
      = some "EV_KEY" ∧
    evalArms 99 (evArmsFor [(0, ["EV_SYN"]), (1, ["EV_KEY"])] 1 31) = none := by
  have h := c3
    (parse ["#define EV_SYN 0x00", "#define EV_KEY 0x01", "#define EV_MAX 0x1f"])
    [(0, ["EV_SYN"])] 1 ["EV_KEY"] 31 [] (by decide) (by decide) (by decide)
  exact ⟨h.1, h.2.1 17 (by decide) (by decide), h.2.2.1,
    h.2.2.2.1 (1, ["EV_KEY"]) (by decide),
    h.2.2.2.2 99 (by decide) (by decide) (by decide)⟩

/-- C8: in the tagged event-code type (on singleton buckets with distinct
canonical names, the only inputs the emitter accepts), every event-type
constant yields exactly one variant bearing its name; a constant other than
`EV_FF_STATUS` carries a payload of its own (same-named) sub-code type
exactly when its name with the three-character prefix stripped, plus an
underscore, occurs in `event_names`; otherwise it is a bare variant;
`EV_FF_STATUS` carries the `EV_FF` payload instead; and the sentinel
`EV_UNK` variant with its two raw `u32` fields is present once per
`EV_MAX`-named bucket. -/
theorem c8 (bits : Bits) (bs : Buckets)
    (hb : getattrB bits "ev" = some bs)
    (hsing : ∀ b ∈ bs, b.2.length = 1)
    (hnodup : (bs.map (fun b => headStr b.2)).Nodup) :
    print_event_code bits "ev"
      = Emit.ok (bs.flatMap (fun b => codePiece (headStr b.2))) ∧
    (∀ b ∈ bs,
      (emitD [] (print_event_code bits "ev")).countP (bearsName (headStr b.2))
        = 1) ∧
    (∀ b ∈ bs, ¬ headStr b.2 = "EV_FF_STATUS" →
      (CodeVariant.payload (headStr b.2) (headStr b.2)
          ∈ emitD [] (print_event_code bits "ev")
        ↔ (strip3 (headStr b.2) ++ "_") ∈ event_names)) ∧
    (∀ b ∈ bs, ¬ headStr b.2 = "EV_FF_STATUS" →
      (CodeVariant.plain (headStr b.2) ∈ emitD [] (print_event_code bits "ev")
        ↔ ¬ (strip3 (headStr b.2) ++ "_") ∈ event_names)) ∧
    (∀ b ∈ bs, headStr b.2 = "EV_FF_STATUS" →
      CodeVariant.payload "EV_FF_STATUS" "EV_FF"
        ∈ emitD [] (print_event_code bits "ev")) ∧
    ((emitD [] (print_event_code bits "ev")).countP
        (fun x => x == CodeVariant.unkPayload)
      = bs.countP (fun b => headStr b.2 == "EV_MAX")) := by
  have hok := print_event_code_ok bits "ev" bs (by decide) hb hsing
  have hemit : emitD [] (print_event_code bits "ev")
      = bs.flatMap (fun b => codePiece (headStr b.2)) := by
    rw [hok]
    rfl
  refine ⟨hok, ?_, ?_, ?_, ?_, ?_⟩
  · intro b hbm
    rw [hemit, countP_flatMap]
    have hcongr : bs.map
        (fun x => (codePiece (headStr x.2)).countP (bearsName (headStr b.2)))
        = bs.map (fun x => if headStr x.2 = headStr b.2 then 1 else 0) := by
      apply List.map_congr_left
      intro x hx
      exact codePiece_count (headStr x.2) (headStr b.2)
    rw [hcongr]
    exact sum_count_one (headStr b.2) bs hnodup b hbm rfl
  · intro b hbm hnf
    rw [hemit, List.mem_flatMap]
    constructor
    · rintro ⟨b', hb', hpm⟩
      exact ((payload_mem_codePiece (headStr b'.2) (headStr b.2)).mp hpm).2
    · intro hev
      exact ⟨b, hbm,
        (payload_mem_codePiece (headStr b.2) (headStr b.2)).mpr ⟨rfl, hev⟩⟩
  · intro b hbm hnf
    rw [hemit, List.mem_flatMap]
    constructor
    · rintro ⟨b', hb', hpm⟩
      exact ((plain_mem_codePiece (headStr b'.2) (headStr b.2)).mp hpm).2.1
    · intro hev
      exact ⟨b, hbm,
        (plain_mem_codePiece (headStr b.2) (headStr b.2)).mpr ⟨rfl, hev, hnf⟩⟩
  · intro b hbm hf
    rw [hemit, List.mem_flatMap]
    refine ⟨b, hbm, ?_⟩
    rw [hf]
    decide
  · rw [hemit]
    exact count_unk_code bs

/-- C8 witness: on `EV_SYN`, `EV_KEY`, `EV_FF_STATUS`, `EV_MAX` the emitted
type is `EV_SYN(EV_SYN)`, `EV_KEY(EV_KEY)`, `EV_FF_STATUS(EV_FF)`, the raw
two-field `EV_UNK`, then plain `EV_MAX`; `EV_KEY` appears exactly once. -/
theorem c8_witness :
    print_event_code
        (parse ["#define EV_SYN 0x00", "#define EV_KEY 0x01",
          "#define EV_FF_STATUS 0x17", "#define EV_MAX 0x1f"]) "ev"
      = Emit.ok [CodeVariant.payload "EV_SYN" "EV_SYN",
          CodeVariant.payload "EV_KEY" "EV_KEY",
          CodeVariant.payload "EV_FF_STATUS" "EV_FF",
          CodeVariant.unkPayload, CodeVariant.plain "EV_MAX"] ∧
    (emitD [] (print_event_code
        (parse ["#define EV_SYN 0x00", "#define EV_KEY 0x01",
          "#define EV_FF_STATUS 0x17", "#define EV_MAX 0x1f"]) "ev")).countP
        (bearsName "EV_KEY") = 1 := by
  have h := c8
    (parse ["#define EV_SYN 0x00", "#define EV_KEY 0x01",
      "#define EV_FF_STATUS 0x17", "#define EV_MAX 0x1f"])
    [(0, ["EV_SYN"]), (1, ["EV_KEY"]), (23, ["EV_FF_STATUS"]),
      (31, ["EV_MAX"])] (by decide) (by decide) (by decide)
  refine ⟨?_, ?_⟩
  · rw [h.1]
    decide
  · exact h.2.1 (1, ["EV_KEY"]) (by decide)

/-- C6 counterexample: on `#define REL_A 0`, `#define REL_B 0` the alias
`REL_B` appears as an identifier in the enumeration emitter's output (as an
alias constant) but in no match arm of the conversion function emitter's
output, refuting the claimed round trip for alias identifiers. -/
theorem c6_counterexample :
    print_enums (parse ["#define REL_A 0", "#define REL_B 0"]) "rel"
      = Emit.ok ⟨[EnumVariant.entry "REL_A" 0], [("REL_B", "REL_A")]⟩ ∧
    print_enums_convert_fn (parse ["#define REL_A 0", "#define REL_B 0"]) "rel"
      = Emit.ok [Arm.exact 0 "REL_A"] ∧
    "REL_B" ∈ allEnumIdents ⟨[EnumVariant.entry "REL_A" 0],
        [("REL_B", "REL_A")]⟩ ∧
    ¬ "REL_B" ∈ armIdents [Arm.exact 0 "REL_A"] := by
  refine ⟨by decide, by decide, by decide, by decide⟩

/-- C6 (amended): the round trip holds for the variant identifiers — the
list of identifiers named by the conversion function's match arms equals
the list of variant identifiers of the enumeration body (canonical names
plus the synthesized `EV_UNK`), in emission order — while alias constants
appear only in the enumeration output and are not (in general) among the
match arms. -/
theorem c6_amended (bits : Bits) (p : String) (bs : Buckets)
    (hb : getattrB bits p = some bs)
    (h : ∀ b ∈ bs, b.2 ≠ [])
    (hfirst : ∀ b0 rest, bs = b0 :: rest → headStr b0.2 ≠ "EV_MAX")
    (hkey : p = "key" →
      ∃ bsb, getattrB bits "btn" = some bsb ∧ ∀ b ∈ bsb, b.2 ≠ []) :
    print_enums bits p ≠ Emit.err ∧ print_enums bits p ≠ Emit.skip ∧
    print_enums_convert_fn bits p ≠ Emit.err ∧
    print_enums_convert_fn bits p ≠ Emit.skip ∧
    armIdents (emitD [] (print_enums_convert_fn bits p))
      = variantIdents (emitD ⟨[], []⟩ (print_enums bits p)).variants := by
  obtain ⟨arms, harms⟩ := convertArms_ok_top bs h hfirst
  have henum := enumItems_eq bs h
  have halign := idents_align bs none arms _ _ harms henum
  by_cases hp : p = "key"
  · subst hp
    obtain ⟨bsb, hbb, hbne⟩ := hkey rfl
    obtain ⟨armsb, harmsb⟩ := btnArms_ok bsb hbne
    have hben := btnItems_eq bsb hbne
    have halignb := idents_align_btn bsb armsb _ _ harmsb hben
    have he := print_enums_eq_key bits bs bsb hb hbb h hbne
    have hc := print_convert_eq_key bits bs bsb arms armsb hb hbb harms harmsb
    rw [he, hc]
    refine ⟨by simp, by simp, by simp, by simp, ?_⟩
    simp only [emitD]
    rw [armIdents_append, variantIdents_append, halign, halignb]
  · have he := print_enums_eq_nonkey bits p bs hp hb h
    have hc := print_convert_eq_nonkey bits p bs arms hp hb harms
    rw [he, hc]
    refine ⟨by simp, by simp, by simp, by simp, ?_⟩
    simp only [emitD]
    exact halign

/-- C6 witness: on the aliased input `REL_A 0`, `REL_B 0` the match-arm
identifiers coincide with the variant identifiers (both are `REL_A` only) —
applied at the same state in which the original round-trip claim fails for
the alias `REL_B`. -/
theorem c6_witness :
    armIdents (emitD [] (print_enums_convert_fn
        (parse ["#define REL_A 0", "#define REL_B 0"]) "rel"))
      = variantIdents (emitD ⟨[], []⟩ (print_enums
        (parse ["#define REL_A 0", "#define REL_B 0"]) "rel")).variants :=
  (c6_amended (parse ["#define REL_A 0", "#define REL_B 0"]) "rel"
    [(0, ["REL_A", "REL_B"])] (by decide) (by decide)
    (by
      intro b0 rest heq
      injection heq with h1 h2
      rw [← h1]
      decide)
    (by
      intro hk
      exact absurd hk (by decide))).2.2.2.2

theorem groupBy_names (ms : List (Nat × String)) :
    ∀ v ns, (v, ns) ∈ groupBy ms →
      ns = (ms.filter (fun m => m.1 == v)).map (fun m => m.2) ∧ ns ≠ [] := by
  intro v ns hmem
  rw [groupBy_eq] at hmem
  rcases List.mem_map.mp hmem with ⟨w, hw, heq⟩
  have h1 : w = v := congrArg Prod.fst heq
  subst h1
  have h2 : (ms.filter (fun m => m.1 == w)).map (fun m => m.2) = ns :=
    congrArg Prod.snd heq
  refine ⟨h2.symm, ?_⟩
  have hv : w ∈ ms.map (fun m => m.1) := (mem_firstKeys _ _).mp hw
  rcases List.mem_map.mp hv with ⟨m, hm, hm1⟩
  rw [← h2]
  intro hnil
  have hfe : ms.filter (fun m => m.1 == w) = [] := by
    cases hflt : ms.filter (fun m => m.1 == w) with
    | nil => rfl
    | cons a t =>
        rw [hflt] at hnil
        simp at hnil
  have hmf : m ∈ ms.filter (fun m => m.1 == w) :=
    List.mem_filter.mpr ⟨hm, by simp [hm1]⟩
  rw [hfe] at hmf
  exact absurd hmf (List.not_mem_nil m)

theorem groupBy_keys_nodup (ms : List (Nat × String)) :
    ((groupBy ms).map (fun b => b.1)).Nodup := by
  rw [groupBy_eq]
  simp only [List.map_map]
  have hcomp : ((fun b : Nat × List String => b.1) ∘
      (fun w => (w, (ms.filter (fun m => m.1 == w)).map (fun m => m.2))))
      = fun w => w := rfl
  rw [hcomp]
  simpa using nodup_firstKeys (ms.map (fun m => m.1))

/-- C5: on any input whose macros are routed to group `p` (and, for the key
group, at least one button macro so the merged loop does not fault), the
scanner produces one bucket per distinct value (values are pairwise
distinct), each bucket's name list is exactly the file-ordered occurrences
of that value (so the canonical head is the first-encountered name), and
the emitted enumeration contains exactly one discriminant entry per bucket
— canonical name with the bucket's value — plus exactly one constant per
alias beyond the first, each paired with the canonical name it equals
(aliases are never discriminant entries); for the key group the button
group's entries and constants are appended after the key group's own. -/
theorem c5 (lines : List String) (p : String)
    (hms : macrosFor p lines ≠ [])
    (hkey : p = "key" → macrosFor "btn" lines ≠ []) :
    ((groupBy (macrosFor p lines)).map (fun b => b.1)).Nodup ∧
    (∀ v ns, (v, ns) ∈ groupBy (macrosFor p lines) →
        ns = ((macrosFor p lines).filter (fun m => m.1 == v)).map (fun m => m.2)
          ∧ ns ≠ []) ∧
    print_enums (parse lines) p ≠ Emit.err ∧
    print_enums (parse lines) p ≠ Emit.skip ∧
    entriesOf (emitD ⟨[], []⟩ (print_enums (parse lines) p)).variants
      = (groupBy (macrosFor p lines)).map (fun b => (headStr b.2, b.1))
        ++ (if p = "key"
            then (groupBy (macrosFor "btn" lines)).map
              (fun b => (headStr b.2, b.1))
            else []) ∧
    (emitD ⟨[], []⟩ (print_enums (parse lines) p)).consts
      = (groupBy (macrosFor p lines)).flatMap
          (fun b => b.2.tail.map (fun a => (a, headStr b.2)))
        ++ (if p = "key"
            then (groupBy (macrosFor "btn" lines)).flatMap
              (fun b => b.2.tail.map (fun a => (a, headStr b.2)))
            else []) := by
  have hgat : getattrB (parse lines) p = some (groupBy (macrosFor p lines)) := by
    rw [parse_spec, if_neg hms]
  have hnames := groupBy_names (macrosFor p lines)
  have hne : ∀ b ∈ groupBy (macrosFor p lines), b.2 ≠ [] := by
    intro b hbm
    obtain ⟨v, ns⟩ := b
    exact (hnames v ns hbm).2
  by_cases hp : p = "key"
  · subst hp
    have hmsb := hkey rfl
    have hgatb : getattrB (parse lines) "btn"
        = some (groupBy (macrosFor "btn" lines)) := by
      rw [parse_spec, if_neg hmsb]
    have hnamesb := groupBy_names (macrosFor "btn" lines)
    have hneb : ∀ b ∈ groupBy (macrosFor "btn" lines), b.2 ≠ [] := by
      intro b hbm
      obtain ⟨v, ns⟩ := b
      exact (hnamesb v ns hbm).2
    have he := print_enums_eq_key (parse lines) _ _ hgat hgatb hne hneb
    refine ⟨groupBy_keys_nodup _, hnames, ?_, ?_, ?_, ?_⟩
    · rw [he]
      simp
    · rw [he]
      simp
    · rw [he]
      dsimp only [emitD]
      rw [entriesOf_append, entriesOf_enum, entriesOf_btnmap, if_pos rfl]
    · rw [he]
      dsimp only [emitD]
      rw [constsOf_append, constsOf_enum, constsOf_enum, if_pos rfl]
  · have he := print_enums_eq_nonkey (parse lines) p _ hp hgat hne
    refine ⟨groupBy_keys_nodup _, hnames, ?_, ?_, ?_, ?_⟩
    · rw [he]
      simp
    · rw [he]
      simp
    · rw [he]
      dsimp only [emitD]
      rw [entriesOf_enum, if_neg hp, List.append_nil]
    · rw [he]
      dsimp only [emitD]
      rw [constsOf_enum, if_neg hp, List.append_nil]

/-- C5 witness: on `ABS_X 0`, `ABS_Y 1`, `ABS_Z 1` the group has the
distinct values 0 and 1, the entries are `ABS_X = 0` and `ABS_Y = 1`
(canonical, first-encountered names) and the alias `ABS_Z` becomes the one
constant equal to `ABS_Y`. -/
theorem c5_witness :
    ((groupBy (macrosFor "abs"
        ["#define ABS_X 0", "#define ABS_Y 1", "#define ABS_Z 1"])).map
        (fun b => b.1)).Nodup ∧
    entriesOf (emitD ⟨[], []⟩ (print_enums
        (parse ["#define ABS_X 0", "#define ABS_Y 1", "#define ABS_Z 1"])
        "abs")).variants
      = [("ABS_X", 0), ("ABS_Y", 1)] ∧
    (emitD ⟨[], []⟩ (print_enums
        (parse ["#define ABS_X 0", "#define ABS_Y 1", "#define ABS_Z 1"])
        "abs")).consts
      = [("ABS_Z", "ABS_Y")] := by
  have h := c5 ["#define ABS_X 0", "#define ABS_Y 1", "#define ABS_Z 1"] "abs"
    (by decide) (by intro hk; exact absurd hk (by decide))
  refine ⟨h.1, ?_, ?_⟩
  · rw [h.2.2.2.2.1]
    decide
  · rw [h.2.2.2.2.2]
    decide
